import Mathlib

/-!
Verification development for the megacli code-assistant core.

The definitions below are a shallow embedding of the TypeScript sources:

* the response tag parser (`extractCommands`, `extractFileWrites`,
  `removeCommandTags`, `removeFileWriteTags`) of the `CodeAssistant` class,
  modelling the JavaScript regex scans
  `/<execute_command>([\s\S]*?)<\/execute_command>/g` and
  `/<write_file\s+path="([^"]+)">([\s\S]*?)<\/write_file>/g`
  as explicit leftmost/shortest-match scanners over `List Char`;
* the sandboxed path validation (`validatePath`, `exists`) of
  `FileSystemManager`, with Node's `path.resolve` (POSIX flavour)
  embedded as `posixResolve`;
* the session loop state of `CodeAssistant` (`processMessage`,
  `writeFile`, `executeCommand`, `startInteractive`, `executeTask`)
  with external effects (model reply, child process, filesystem
  outcomes) supplied as explicit inputs and recorded as event traces.

Strings are modelled as `List Char`; bytes are identified with
characters (the sources use utf-8 text throughout).
-/

namespace Megacli

/-- JavaScript whitespace class used by `String.prototype.trim` and by the
regex class `\s` (restricted to the characters that actually occur in the
sources and tests): space, tab, newline, carriage return, vertical tab,
form feed. -/
def isWS (c : Char) : Bool :=
  c = ' ' || c = '\t' || c = '\n' || c = '\r' || c = '\x0b' || c = '\x0c'

/-- Drop leading JavaScript whitespace. -/
def ltrim (s : List Char) : List Char := s.dropWhile isWS

/-- JavaScript `String.prototype.trim`: drop leading and trailing
whitespace. -/
def trimL (s : List Char) : List Char :=
  ((ltrim s).reverse.dropWhile isWS).reverse

/-- Match a literal pattern at the head of the input; on success return the
rest of the input. -/
def matchLit : List Char → List Char → Option (List Char)
  | [], s => some s
  | _ :: _, [] => none
  | p :: ps, c :: cs => if p = c then matchLit ps cs else none

/-- Split the input at the first occurrence of the literal `pat`,
returning the part before the occurrence and the part after it.  This is
the semantics of a non-greedy capture `([\s\S]*?)` followed by the literal
`pat`. -/
def splitAtFirst (pat : List Char) : List Char → Option (List Char × List Char)
  | [] => match matchLit pat [] with
    | some r => some ([], r)
    | none => none
  | c :: cs => match matchLit pat (c :: cs) with
    | some rest => some ([], rest)
    | none => match splitAtFirst pat cs with
      | some (pre, rest) => some (c :: pre, rest)
      | none => none

/-- `<execute_command>` opening tag. -/
def cmdOpenT : List Char := "<execute_command>".data

/-- `</execute_command>` closing tag. -/
def cmdCloseT : List Char := "</execute_command>".data

/-- `<write_file` opening-tag head (before the whitespace and the `path`
attribute). -/
def wOpenT : List Char := "<write_file".data

/-- The literal `path="` introducing the path attribute value. -/
def pathAttrT : List Char := "path=\"".data

/-- `</write_file>` closing tag. -/
def wCloseT : List Char := "</write_file>".data

/-- Anchored match of `<execute_command>([\s\S]*?)<\/execute_command>` at
the start of the input: the opening tag must be present, and the capture
runs to the first occurrence of the closing tag.  Returns the capture and
the input after the match. -/
def tryCmdAt (s : List Char) : Option (List Char × List Char) :=
  match matchLit cmdOpenT s with
  | none => none
  | some afterOpen => splitAtFirst cmdCloseT afterOpen

/-- Leftmost match of the command regex: try the anchored match at every
position from the left, exactly as the backtracking regex engine does.
Returns the text before the match, the capture, and the rest after the
match. -/
def findTagCmd : List Char → Option (List Char × List Char × List Char)
  | [] => none
  | c :: cs =>
    match tryCmdAt (c :: cs) with
    | some (body, rest) => some ([], body, rest)
    | none =>
      match findTagCmd cs with
      | some (pre, body, rest) => some (c :: pre, body, rest)
      | none => none

/-- Anchored match of `<write_file\s+path="([^"]+)">([\s\S]*?)<\/write_file>`
at the start of the input.  `\s+` takes the maximal whitespace run (the
following literal starts with `p`, which is not whitespace, so the
backtracking engine agrees), `[^"]+` takes the maximal run of non-quote
characters (the following literal starts with `"`, so again no
backtracking), and the body capture is non-greedy. -/
def tryWriteAt (s : List Char) : Option (List Char × List Char × List Char) :=
  match matchLit wOpenT s with
  | none => none
  | some a1 =>
    if (a1.takeWhile isWS).isEmpty then none
    else
      match matchLit pathAttrT (a1.dropWhile isWS) with
      | none => none
      | some a2 =>
        if (a2.takeWhile (fun c => c != '"')).isEmpty then none
        else
          match a2.dropWhile (fun c => c != '"') with
          | '"' :: '>' :: a3 =>
            match splitAtFirst wCloseT a3 with
            | some (body, rest) =>
              some (a2.takeWhile (fun c => c != '"'), body, rest)
            | none => none
          | _ => none

/-- Leftmost match of the write-file regex: (prefix, path capture, body
capture, rest). -/
def findTagWrite : List Char → Option (List Char × List Char × List Char × List Char)
  | [] => none
  | c :: cs =>
    match tryWriteAt (c :: cs) with
    | some (p, body, rest) => some ([], p, body, rest)
    | none =>
      match findTagWrite cs with
      | some (pre, p, body, rest) => some (c :: pre, p, body, rest)
      | none => none

/-- The `while ((match = regex.exec(text)) !== null)` loop of
`extractCommands`: each matched command is trimmed and pushed when
non-empty (JavaScript truthiness discards the empty string).  Recursion is
by fuel; every match consumes at least the opening tag, so the input
length bounds the number of iterations. -/
def extractCommandsAux : Nat → List Char → List (List Char)
  | 0, _ => []
  | fuel + 1, s =>
    match findTagCmd s with
    | none => []
    | some (_, body, rest) =>
      (if (trimL body).isEmpty then [] else [trimL body]) ++
        extractCommandsAux fuel rest

/-- `extractCommands` of `CodeAssistant` (src/commands/code.ts). -/
def extractCommands (s : List Char) : List (List Char) :=
  extractCommandsAux (s.length + 1) s

/-- The matcher loop of `extractFileWrites`: path and content are trimmed;
the intent is kept when the trimmed path is non-empty (the content capture
is always defined, so `content !== undefined` always holds). -/
def extractFileWritesAux : Nat → List Char → List (List Char × List Char)
  | 0, _ => []
  | fuel + 1, s =>
    match findTagWrite s with
    | none => []
    | some (_, p, body, rest) =>
      (if (trimL p).isEmpty then [] else [(trimL p, trimL body)]) ++
        extractFileWritesAux fuel rest

/-- `extractFileWrites` of `CodeAssistant`. -/
def extractFileWrites (s : List Char) : List (List Char × List Char) :=
  extractFileWritesAux (s.length + 1) s

/-- `text.replace(/<execute_command>[\s\S]*?<\/execute_command>/g, '')`:
every leftmost match is deleted and scanning resumes after it. -/
def replaceCmdAux : Nat → List Char → List Char
  | 0, s => s
  | fuel + 1, s =>
    match findTagCmd s with
    | none => s
    | some (pre, _, rest) => pre ++ replaceCmdAux fuel rest

/-- `removeCommandTags` of `CodeAssistant`: global replace, then trim. -/
def removeCommandTags (s : List Char) : List Char :=
  trimL (replaceCmdAux (s.length + 1) s)

/-- `text.replace(/<write_file\s+path="[^"]+">[\s\S]*?<\/write_file>/g, '')`. -/
def replaceWriteAux : Nat → List Char → List Char
  | 0, s => s
  | fuel + 1, s =>
    match findTagWrite s with
    | none => s
    | some (pre, _, _, rest) => pre ++ replaceWriteAux fuel rest

/-- `removeFileWriteTags` of `CodeAssistant`: global replace, then trim. -/
def removeFileWriteTags (s : List Char) : List Char :=
  trimL (replaceWriteAux (s.length + 1) s)

/-- The display-cleaning pipeline of `processMessage` (lines 223-225):
first `removeFileWriteTags`, then `removeCommandTags`. -/
def stripTags (s : List Char) : List Char :=
  removeCommandTags (removeFileWriteTags s)

/-! ## Scoped file accessor: `FileSystemManager` path sandbox -/

/-- Split a character list at every `'/'` (the separator is dropped;
adjacent separators yield empty segments, as in Node's path parsing). -/
def splitSlash : List Char → List (List Char)
  | [] => [[]]
  | c :: cs =>
    if c = '/' then [] :: splitSlash cs
    else
      match splitSlash cs with
      | [] => [[c]]
      | seg :: rest => (c :: seg) :: rest

/-- Normalization core of Node's POSIX `path.resolve` on an absolute
path: empty and `.` segments are dropped, `..` pops the last stacked
segment (and is dropped at the root), every other segment is pushed. -/
def normSegs : List (List Char) → List (List Char) → List (List Char)
  | stack, [] => stack
  | stack, seg :: rest =>
    if seg = [] ∨ seg = ['.'] then normSegs stack rest
    else if seg = ['.', '.'] then normSegs stack.dropLast rest
    else normSegs (stack ++ [seg]) rest

/-- Join segments with `'/'`. -/
def joinSlash : List (List Char) → List Char
  | [] => []
  | [seg] => seg
  | seg :: rest => seg ++ '/' :: joinSlash rest

/-- Render an absolute path from its normalized segments (`[]` renders
the root `"/"`). -/
def renderAbs (segs : List (List Char)) : List Char :=
  '/' :: joinSlash segs

/-- Node's POSIX `path.resolve(root, p)` for an absolute `root`: if `p`
is absolute it wins, otherwise it is appended to `root` with a
separator; the combination is then normalized.  The result never has a
trailing slash (except the bare root `"/"`). -/
def posixResolve (root p : List Char) : List Char :=
  let combined := if p.head? = some '/' then p else root ++ '/' :: p
  renderAbs (normSegs [] (splitSlash combined))

/-- `validatePath` of `FileSystemManager` (src/lib/filesystem.ts):
resolve against the working directory and reject (throw
`Access denied`) when the resolved string does not start with the
working-directory string. -/
def validatePath (root p : List Char) : Except String (List Char) :=
  let resolvedPath := posixResolve root p
  if root.isPrefixOf resolvedPath then Except.ok resolvedPath
  else Except.error "Access denied: Path is outside working directory"

/-- Semantic containment of normalized absolute paths: `p` lies in the
directory tree rooted at `root` when the segment list of `root` is a
prefix of the segment list of `p`. -/
def isUnder (root p : List Char) : Bool :=
  (normSegs [] (splitSlash root)).isPrefixOf (normSegs [] (splitSlash p))

/-- `exists` of `FileSystemManager`: `validatePath` and the `fs.access`
probe run inside `try { ... } catch { return false }`, so every failure
(including the sandbox `Access denied` throw) is swallowed and yields
`false`.  The filesystem probe is supplied as a boolean oracle
(`fs.access` resolving = `true`, rejecting = `false`). -/
def existsFile (access : List Char → Bool) (root p : List Char) : Bool :=
  match validatePath root p with
  | Except.error _ => false
  | Except.ok validPath => access validPath

/-- A clean path segment: non-empty, not a dot segment, and without a
separator. -/
def cleanSeg (seg : List Char) : Prop :=
  seg ≠ [] ∧ seg ≠ ['.'] ∧ seg ≠ ['.', '.'] ∧ '/' ∉ seg

/-- A normalized absolute working directory, as produced by
`path.resolve(workingDir)` in the `FileSystemManager` constructor. -/
def cleanSegs (segs : List (List Char)) : Prop :=
  ∀ seg ∈ segs, cleanSeg seg

/-! ## Session loop: `CodeAssistant` (src/commands/code.ts) -/

/-- Message roles of the OpenAI chat API, as used in
`session.messages`. -/
inductive Role
  | system
  | user
  | assistant
deriving DecidableEq, Repr

/-- One entry of `session.messages`. -/
structure Msg where
  role : Role
  content : String
deriving DecidableEq, Repr

/-- The mutable session state of `CodeAssistant`: the message log, the
set of modified files (a JavaScript `Set` keeps insertion order and
deduplicates) and the command history. -/
structure Session where
  messages : List Msg
  filesModified : List String
  commandsExecuted : List (String × String)
deriving DecidableEq, Repr

/-- Observable side-effecting calls made by the session, recorded in
order.  `fsExists`/`fsRead`/`fsWrite` are Scoped File Accessor calls,
`cmdExec` is a Command Executor call (a subprocess spawn),
`trustPrompt`/`trustStore` are the Trust Gate interactions, and
`appendAssistant` marks the commit of the assistant message to the
conversation state. -/
inductive Event
  | fsExists (p : String)
  | fsRead (p : String)
  | fsWrite (p : String)
  | cmdExec (c : String)
  | trustPrompt
  | trustStore
  | appendAssistant
deriving DecidableEq, Repr

/-- Is the event a Scoped File Accessor or Command Executor call? -/
def Event.isToolCall : Event → Bool
  | .fsExists _ => true
  | .fsRead _ => true
  | .fsWrite _ => true
  | .cmdExec _ => true
  | _ => false

/-- Outcome of one `fs.writeFile` (including the `mkdir`), supplied by
the environment. -/
inductive WriteOutcome
  | success
  | failure (emsg : String)

/-- Behaviour of the child process spawned for one command, supplied by
the environment: either the shell runs and produces stdout/stderr and an
exit code, or spawning itself fails. -/
inductive ChildRun
  | runs (stdout stderr : String) (exitCode : Nat)
  | launchFail (emsg : String)

/-- The error object thrown by `execSync`, as consumed by the catch
branch of `executeCommand` (`error.stderr?.toString() || error.message`). -/
structure ExecError where
  stderr : Option String
  message : String

/-- The `maxBuffer` passed to `execSync`: `10 * 1024 * 1024` bytes. -/
def maxBufferBytes : Nat := 10 * 1024 * 1024

/-- JavaScript `String.prototype.slice(0, n)` / output truncation,
modelling bytes as characters. -/
def strTake (s : String) (n : Nat) : String :=
  String.mk (s.data.take n)

/-- Modelled from the documented contract of Node's
`child_process.execSync` (an external collaborator, not repository
code): the call is synchronous; if stdout or stderr exceeds `maxBuffer`
the child process is terminated, the captured output is truncated, and
the call throws `ERR_CHILD_PROCESS_STDIO_MAXBUFFER`; if the child exits
with a non-zero code the call throws an error whose `message` is the
generic `Command failed: <command>` text (with stderr appended when
non-empty) and whose `stderr` property carries the captured stderr; if
spawning fails the call throws the launch error; otherwise it returns
the captured stdout. -/
def execSyncModel (command : String) (child : ChildRun) : Except ExecError String :=
  match child with
  | ChildRun.launchFail emsg => Except.error { stderr := none, message := emsg }
  | ChildRun.runs stdout stderr exitCode =>
    if maxBufferBytes < stdout.length then
      Except.error { stderr := some (strTake stderr maxBufferBytes),
                     message := "stdout maxBuffer length exceeded" }
    else if maxBufferBytes < stderr.length then
      Except.error { stderr := some (strTake stderr maxBufferBytes),
                     message := "stderr maxBuffer length exceeded" }
    else if exitCode ≠ 0 then
      Except.error { stderr := some stderr,
                     message := "Command failed: " ++ command ++
                       (if stderr.isEmpty then "" else "\n" ++ stderr) }
    else Except.ok stdout

/-- `writeFile` of `CodeAssistant` (lines 314-338): attempt the write;
on success record the file in `filesModified` (Set semantics) and push a
`File written` system message; on failure push only a
`File write failed` system message.  Either way one accessor call is
made. -/
def writeFileStep (sess : Session) (filePath _content : String)
    (outcome : WriteOutcome) : Session × List Event :=
  match outcome with
  | WriteOutcome.success =>
    ({ sess with
        filesModified :=
          if filePath ∈ sess.filesModified then sess.filesModified
          else sess.filesModified ++ [filePath],
        messages := sess.messages ++
          [⟨Role.system, "File written: " ++ filePath⟩] },
      [Event.fsWrite filePath])
  | WriteOutcome.failure emsg =>
    ({ sess with
        messages := sess.messages ++
          [⟨Role.system,
            "File write failed for " ++ filePath ++ ": " ++ emsg⟩] },
      [Event.fsWrite filePath])

/-- `executeCommand` of `CodeAssistant` (lines 343-405): run the shell
command; on success record it in `commandsExecuted` and push a system
message with the output sliced to 1000 characters; on failure push a
`Command failed` system message carrying the captured stderr, or the
error message when stderr is absent or empty.  The catch swallows the
error, so the session continues either way. -/
def executeCommand (sess : Session) (command : String) (child : ChildRun) :
    Session × List Event :=
  match execSyncModel command child with
  | Except.ok output =>
    ({ sess with
        commandsExecuted := sess.commandsExecuted ++ [(command, output)],
        messages := sess.messages ++
          [⟨Role.system,
            "Command executed: " ++ command ++ "\nOutput: " ++
              strTake output 1000⟩] },
      [Event.cmdExec command])
  | Except.error e =>
    ({ sess with
        messages := sess.messages ++
          [⟨Role.system,
            "Command failed: " ++ command ++ "\nError: " ++
              (match e.stderr with
                | some s => if s.isEmpty then e.message else s
                | none => e.message)⟩] },
      [Event.cmdExec command])

/-- The environment supplying external outcomes: the result of each file
write and the child-process behaviour of each command. -/
structure Env where
  wout : String → String → WriteOutcome
  child : String → ChildRun

/-- The `for (const write of fileWrites)` loop of `processMessage`. -/
def foldWrites (env : Env) : Session → List (String × String) → Session × List Event
  | sess, [] => (sess, [])
  | sess, (p, c) :: ws =>
    let step := writeFileStep sess p c (env.wout p c)
    let rest := foldWrites env step.1 ws
    (rest.1, step.2 ++ rest.2)

/-- The `for (const cmd of commands)` loop of `processMessage`. -/
def foldCmds (env : Env) : Session → List String → Session × List Event
  | sess, [] => (sess, [])
  | sess, c :: cs =>
    let step := executeCommand sess c (env.child c)
    let rest := foldCmds env step.1 cs
    (rest.1, step.2 ++ rest.2)

/-- String view of an extracted file-write intent. -/
def intentPairs (s : List Char) : List (String × String) :=
  (extractFileWrites s).map (fun pc => (String.mk pc.1, String.mk pc.2))

/-- String view of the extracted commands. -/
def intentCmds (s : List Char) : List String :=
  (extractCommands s).map String.mk

/-- The response-handling part of `processMessage` (lines 212-255),
given the raw model reply: extract the intents; if any are present,
execute all file writes, then all commands (the display cleaning has no
state effect and is omitted); finally append the untouched reply as the
assistant message. -/
def processReply (env : Env) (sess : Session) (reply : String) :
    Session × List Event :=
  let fileWrites := intentPairs reply.data
  let commands := intentCmds reply.data
  if fileWrites.isEmpty ∧ commands.isEmpty then
    ({ sess with messages := sess.messages ++ [⟨Role.assistant, reply⟩] },
      [Event.appendAssistant])
  else
    let w := foldWrites env sess fileWrites
    let c := foldCmds env w.1 commands
    ({ c.1 with messages := c.1.messages ++ [⟨Role.assistant, reply⟩] },
      w.2 ++ c.2 ++ [Event.appendAssistant])

/-- `processMessage` on a successful model call: push the user message,
then handle the reply. -/
def processMessage (env : Env) (sess : Session) (userMessage reply : String) :
    Session × List Event :=
  processReply env
    { sess with messages := sess.messages ++ [⟨Role.user, userMessage⟩] }
    reply

/-- Scoped File Accessor calls performed by
`ProjectAnalyzer.analyzeProject` (src/lib/project-analyzer.ts):
`exists package.json`, a read of it when present, `exists
tsconfig.json`, then existence probes of the four candidate source
directories. -/
def analyzeProjectEvents (hasPkg : Bool) : List Event :=
  [Event.fsExists "package.json"] ++
    (if hasPkg then [Event.fsRead "package.json"] else []) ++
    [Event.fsExists "tsconfig.json"] ++
    [Event.fsExists "src", Event.fsExists "lib",
      Event.fsExists "app", Event.fsExists "source"]

/-- Scoped File Accessor calls performed by
`ProjectAnalyzer.buildAIContext`: `analyzeProject`, then
`getProjectSummary` (which runs `analyzeProject` again), then reads of
`package.json` and `tsconfig.json` when present. -/
def buildAIContextEvents (hasPkg hasTs : Bool) : List Event :=
  analyzeProjectEvents hasPkg ++ analyzeProjectEvents hasPkg ++
    (if hasPkg then [Event.fsRead "package.json"] else []) ++
    (if hasTs then [Event.fsRead "tsconfig.json"] else [])

/-- Event trace of `startInteractive` (lines 96-158): when the workspace
is not trusted, prompt; a declined prompt returns at once (lines
103-106), an accepted prompt stores the trust record; only then does the
project analysis run, followed by the interactive loop (abstracted by
its event trace, since it depends on interactive input). -/
def startInteractiveEvents (trusted accepts : Bool) (hasPkg hasTs : Bool)
    (loopEvents : List Event) : List Event :=
  if trusted then buildAIContextEvents hasPkg hasTs ++ loopEvents
  else if accepts then
    Event.trustPrompt :: Event.trustStore ::
      (buildAIContextEvents hasPkg hasTs ++ loopEvents)
  else [Event.trustPrompt]

/-- Event trace of `executeTask` (lines 163-195): the one-shot task
entry point analyzes the project and processes the task immediately —
the source never consults the workspace-trust state on this path. -/
def executeTaskEvents (hasPkg hasTs : Bool) (env : Env) (sess : Session)
    (task reply : String) : List Event :=
  buildAIContextEvents hasPkg hasTs ++ (processMessage env sess task reply).2

/-- The `codeCommand` action (lines 636-652): `--task` dispatches to
`executeTask`, otherwise `startInteractive` runs.  `trusted` is the
persisted workspace-trust state and `accepts` the user's answer to the
trust prompt (consulted only where the source consults them). -/
def codeActionEvents (trusted accepts : Bool) (hasPkg hasTs : Bool)
    (env : Env) (sess : Session) (loopEvents : List Event) :
    Option (String × String) → List Event
  | some (task, reply) => executeTaskEvents hasPkg hasTs env sess task reply
  | none => startInteractiveEvents trusted accepts hasPkg hasTs loopEvents

/-! ## Well-formed tagged text blocks

A text block "containing N well-formed `write_file` tags and M
well-formed `execute_command` tags" is modelled as the rendering of a
document: an interleaving of plain text, command tags and write tags,
where the pieces between and inside tags do not themselves contain the
tag marker character `'<'` (and attribute values contain no `'"'`). -/

/-- One piece of a tagged text block. -/
inductive Item
  | txt (s : List Char)
  | cmd (s : List Char)
  | fw (p c : List Char)

/-- Render one piece in the exact surface grammar of the parser:
`<execute_command>BODY</execute_command>` and
`<write_file path="PATH">CONTENT</write_file>`. -/
def renderItem : Item → List Char
  | Item.txt s => s
  | Item.cmd s => cmdOpenT ++ s ++ cmdCloseT
  | Item.fw p c =>
    wOpenT ++ ' ' :: (pathAttrT ++ p ++ '"' :: '>' :: (c ++ wCloseT))

/-- Render a document. -/
def renderDoc : List Item → List Char
  | [] => []
  | i :: d => renderItem i ++ renderDoc d

/-- No tag-marker character. -/
def noLt (s : List Char) : Prop := '<' ∉ s

/-- Well-formedness of one piece: plain text and tag bodies contain no
`'<'`; a write path is non-empty (the regex requires `[^"]+`) and
contains neither `'"'` nor `'<'`. -/
def wfItem : Item → Prop
  | Item.txt s => noLt s
  | Item.cmd s => noLt s
  | Item.fw p c => noLt c ∧ p ≠ [] ∧ '"' ∉ p ∧ '<' ∉ p

/-- Well-formed document. -/
def wfDoc (d : List Item) : Prop := ∀ i ∈ d, wfItem i

/-- The command intents of a document, in document order, trimmed, with
empty-after-trim commands discarded. -/
def docCmds : List Item → List (List Char)
  | [] => []
  | Item.cmd s :: d =>
    (if (trimL s).isEmpty then [] else [trimL s]) ++ docCmds d
  | _ :: d => docCmds d

/-- The file-write intents of a document, in document order, with
trimmed path and content, discarded when the path trims to empty. -/
def docWrites : List Item → List (List Char × List Char)
  | [] => []
  | Item.fw p c :: d =>
    (if (trimL p).isEmpty then [] else [(trimL p, trimL c)]) ++ docWrites d
  | _ :: d => docWrites d

/-- Remove the write tags from a document (the intended effect of the
write-tag replace). -/
def dropFw : List Item → List Item
  | [] => []
  | Item.fw _ _ :: d => dropFw d
  | i :: d => i :: dropFw d

/-- Remove the command tags from a document. -/
def dropCmd : List Item → List Item
  | [] => []
  | Item.cmd _ :: d => dropCmd d
  | i :: d => i :: dropCmd d

/-- `safeFor bad s` guarantees that a tag opener starting with `'<'`
followed by `bad` can begin at no position of `s ++ t`, for any `t`:
every `'<'` in `s` is followed, inside `s`, by a character other than
`bad`. -/
def safeFor (bad : Char) : List Char → Bool
  | [] => true
  | c :: rest =>
    if c = '<' then
      match rest with
      | [] => false
      | c2 :: _ => (c2 != bad) && safeFor bad rest
    else safeFor bad rest

/-! ## Parser lemmas -/

theorem matchLit_self_append (p t : List Char) : matchLit p (p ++ t) = some t := by
  induction p with
  | nil => rfl
  | cons c cs ih => simp [matchLit, ih]

theorem matchLit_eq_append {p s r : List Char} (h : matchLit p s = some r) :
    s = p ++ r := by
  induction p generalizing s with
  | nil => simpa [matchLit] using h
  | cons c cs ih =>
    cases s with
    | nil => simp [matchLit] at h
    | cons b bs =>
      by_cases hcb : c = b
      · subst hcb
        simp only [matchLit, if_pos rfl] at h
        simpa using ih h
      · simp [matchLit, hcb] at h

theorem matchLit_head_ne {c b : Char} (cs bs : List Char) (h : c ≠ b) :
    matchLit (c :: cs) (b :: bs) = none := by
  simp [matchLit, h]

theorem matchLit_nil_iff (p : List Char) :
    matchLit p [] = some [] ↔ p = [] := by
  cases p <;> simp [matchLit]

theorem splitAtFirst_here {pat s rest : List Char}
    (h : matchLit pat s = some rest) :
    splitAtFirst pat s = some ([], rest) := by
  cases s with
  | nil =>
    have hp : pat = [] := by
      cases pat with
      | nil => rfl
      | cons c cs => simp [matchLit] at h
    subst hp
    simp [matchLit] at h
    simp [splitAtFirst, matchLit, h]
  | cons c cs => simp [splitAtFirst, h]

theorem splitAtFirst_cons_none {pat : List Char} {c : Char} {cs : List Char}
    (h : matchLit pat (c :: cs) = none) :
    splitAtFirst pat (c :: cs) =
      (splitAtFirst pat cs).map (fun pr => (c :: pr.1, pr.2)) := by
  cases hs : splitAtFirst pat cs with
  | none => simp [splitAtFirst, h, hs]
  | some pr => simp [splitAtFirst, h, hs]

theorem splitAtFirst_boundary {pat : List Char} (body t : List Char)
    (hpat : ∃ ps, pat = '<' :: ps) (hb : noLt body) :
    splitAtFirst pat (body ++ (pat ++ t)) = some (body, t) := by
  induction body with
  | nil => simpa using splitAtFirst_here (matchLit_self_append pat t)
  | cons c cs ih =>
    have hc : c ≠ '<' := by
      intro heq
      exact hb (by simp [heq])
    have hcs : noLt cs := fun hm => hb (List.mem_cons_of_mem _ hm)
    obtain ⟨ps, hp⟩ := hpat
    have hnone : matchLit pat ((c :: cs) ++ (pat ++ t)) = none := by
      subst hp
      exact matchLit_head_ne _ _ (fun h => hc h.symm)
    have := @splitAtFirst_cons_none pat c (cs ++ (pat ++ t))
      (by simpa using hnone)
    simp only [List.cons_append] at *
    rw [this, ih hcs]
    rfl

theorem splitAtFirst_sound {pat s pre rest : List Char}
    (h : splitAtFirst pat s = some (pre, rest)) :
    s = pre ++ pat ++ rest := by
  induction s generalizing pre with
  | nil =>
    cases pat with
    | nil =>
      simp [splitAtFirst, matchLit] at h
      obtain ⟨h1, h2⟩ := h
      subst h1
      subst h2
      rfl
    | cons a as => simp [splitAtFirst, matchLit] at h
  | cons c cs ih =>
    cases hm : matchLit pat (c :: cs) with
    | some r =>
      rw [splitAtFirst_here hm] at h
      simp only [Option.some.injEq, Prod.mk.injEq] at h
      obtain ⟨h1, h2⟩ := h
      subst h1
      subst h2
      simpa using matchLit_eq_append hm
    | none =>
      rw [splitAtFirst_cons_none hm] at h
      cases hs : splitAtFirst pat cs with
      | none => simp [hs] at h
      | some pr =>
        obtain ⟨p1, p2⟩ := pr
        rw [hs] at h
        simp only [Option.map_some', Option.some.injEq, Prod.mk.injEq] at h
        obtain ⟨h1, h2⟩ := h
        subst h2
        have hcs := ih hs
        subst h1
        simp [hcs]

/-! ### safeFor lemmas -/

theorem safeFor_nil (bad : Char) : safeFor bad [] = true := rfl

theorem safeFor_cons_ne {c : Char} (bad : Char) (rest : List Char)
    (h : c ≠ '<') : safeFor bad (c :: rest) = safeFor bad rest := by
  simp [safeFor, h]

theorem safeFor_lt_cons (bad c2 : Char) (rest : List Char) :
    safeFor bad ('<' :: c2 :: rest) = ((c2 != bad) && safeFor bad (c2 :: rest)) := by
  simp [safeFor]

theorem safeFor_of_noLt {bad : Char} {s : List Char} (h : noLt s) :
    safeFor bad s = true := by
  induction s with
  | nil => rfl
  | cons c cs ih =>
    have hc : c ≠ '<' := fun he => h (by simp [he])
    rw [safeFor_cons_ne bad cs hc]
    exact ih (fun hm => h (List.mem_cons_of_mem _ hm))

theorem safeFor_append_noLt {bad : Char} {u v : List Char} (hu : noLt u)
    (hv : safeFor bad v = true) : safeFor bad (u ++ v) = true := by
  induction u with
  | nil => simpa using hv
  | cons c cs ih =>
    have hc : c ≠ '<' := fun he => hu (by simp [he])
    rw [List.cons_append, safeFor_cons_ne bad _ hc]
    exact ih (fun hm => hu (List.mem_cons_of_mem _ hm))

/-! ### trim lemmas -/

theorem ltrim_nil : ltrim [] = [] := rfl

theorem ltrim_cons_not_ws {c : Char} (cs : List Char) (h : isWS c = false) :
    ltrim (c :: cs) = c :: cs := by
  simp [ltrim, List.dropWhile_cons, h]

theorem noLt_ltrim {s : List Char} (h : noLt s) : noLt (ltrim s) :=
  fun hm => h (List.dropWhile_sublist isWS |>.mem hm)

theorem noLt_trimL {s : List Char} (h : noLt s) : noLt (trimL s) := by
  intro hm
  simp only [trimL, List.mem_reverse] at hm
  have h2 : '<' ∈ (ltrim s).reverse := (List.dropWhile_sublist isWS).mem hm
  exact noLt_ltrim h (List.mem_reverse.mp h2)

/-! ### Anchored tag matches -/

theorem cmdOpenT_cons : cmdOpenT = '<' :: 'e' :: "xecute_command>".data := rfl

theorem wOpenT_cons : wOpenT = '<' :: 'w' :: "rite_file".data := rfl

theorem cmdCloseT_cons : cmdCloseT = '<' :: "/execute_command>".data := rfl

theorem wCloseT_cons : wCloseT = '<' :: "/write_file>".data := rfl

theorem tryCmdAt_render (body t : List Char) (hb : noLt body) :
    tryCmdAt (cmdOpenT ++ (body ++ (cmdCloseT ++ t))) = some (body, t) := by
  unfold tryCmdAt
  rw [matchLit_self_append]
  exact splitAtFirst_boundary body t ⟨_, cmdCloseT_cons⟩ hb

theorem tryCmdAt_ne_lt {c : Char} (cs : List Char) (h : c ≠ '<') :
    tryCmdAt (c :: cs) = none := by
  unfold tryCmdAt
  rw [cmdOpenT_cons, matchLit_head_ne _ _ (fun he => h he.symm)]

theorem tryCmdAt_lt_ne {c2 : Char} (cs : List Char) (h : c2 ≠ 'e') :
    tryCmdAt ('<' :: c2 :: cs) = none := by
  unfold tryCmdAt
  rw [cmdOpenT_cons]
  simp [matchLit, Ne.symm h]

theorem tryWriteAt_ne_lt {c : Char} (cs : List Char) (h : c ≠ '<') :
    tryWriteAt (c :: cs) = none := by
  unfold tryWriteAt
  rw [wOpenT_cons, matchLit_head_ne _ _ (fun he => h he.symm)]

theorem tryWriteAt_lt_ne {c2 : Char} (cs : List Char) (h : c2 ≠ 'w') :
    tryWriteAt ('<' :: c2 :: cs) = none := by
  unfold tryWriteAt
  rw [wOpenT_cons]
  simp [matchLit, Ne.symm h]

theorem takeWhile_ne_quote_boundary {p : List Char} (w : List Char)
    (hp : '"' ∉ p) :
    (p ++ '"' :: w).takeWhile (fun c => c != '"') = p ∧
      (p ++ '"' :: w).dropWhile (fun c => c != '"') = '"' :: w := by
  induction p with
  | nil => simp [List.takeWhile_cons, List.dropWhile_cons]
  | cons c cs ih =>
    have hc : c ≠ '"' := fun he => hp (by simp [he])
    have := ih (fun hm => hp (List.mem_cons_of_mem _ hm))
    simp [List.takeWhile_cons, List.dropWhile_cons, hc, this.1, this.2]

theorem tryWriteAt_render (p c t : List Char) (hp0 : p ≠ []) (hpq : '"' ∉ p)
    (hc : noLt c) :
    tryWriteAt (wOpenT ++ ' ' :: (pathAttrT ++ (p ++ '"' :: '>' :: (c ++ (wCloseT ++ t))))) =
      some (p, c, t) := by
  have hwsP : isWS 'p' = false := by decide
  have hwsSp : isWS ' ' = true := by decide
  have hpat : pathAttrT = 'p' :: "ath=\"".data := rfl
  have hws : ((' ' :: (pathAttrT ++ (p ++ '"' :: '>' :: (c ++ (wCloseT ++ t))))).takeWhile isWS) = [' '] := by
    simp only [hpat, List.cons_append, List.takeWhile_cons, hwsSp, hwsP]
    simp
  have hdrop : ((' ' :: (pathAttrT ++ (p ++ '"' :: '>' :: (c ++ (wCloseT ++ t))))).dropWhile isWS) =
      pathAttrT ++ (p ++ '"' :: '>' :: (c ++ (wCloseT ++ t))) := by
    simp only [hpat, List.cons_append, List.dropWhile_cons, hwsSp, hwsP]
    simp
  obtain ⟨htake, hdrop2⟩ := takeWhile_ne_quote_boundary ('>' :: (c ++ (wCloseT ++ t))) hpq
  unfold tryWriteAt
  rw [matchLit_self_append]
  simp only [hws, hdrop, matchLit_self_append, htake, hdrop2,
    splitAtFirst_boundary c t ⟨_, wCloseT_cons⟩ hc]
  simp [hp0]

/-! ### Leftmost-scan lemmas -/

theorem findTagCmd_cons_none {c : Char} {cs : List Char}
    (h : tryCmdAt (c :: cs) = none) :
    findTagCmd (c :: cs) = (findTagCmd cs).map (fun x => (c :: x.1, x.2.1, x.2.2)) := by
  conv_lhs => rw [findTagCmd]
  cases hf : findTagCmd cs with
  | none => simp [h, hf]
  | some x => obtain ⟨a, b, r⟩ := x; simp [h, hf]

theorem findTagCmd_cons_some {c : Char} {cs body rest : List Char}
    (h : tryCmdAt (c :: cs) = some (body, rest)) :
    findTagCmd (c :: cs) = some ([], body, rest) := by
  conv_lhs => rw [findTagCmd]
  simp [h]

theorem findTagWrite_cons_none {c : Char} {cs : List Char}
    (h : tryWriteAt (c :: cs) = none) :
    findTagWrite (c :: cs) =
      (findTagWrite cs).map (fun x => (c :: x.1, x.2.1, x.2.2.1, x.2.2.2)) := by
  conv_lhs => rw [findTagWrite]
  cases hf : findTagWrite cs with
  | none => simp [h, hf]
  | some x => obtain ⟨a, p, b, r⟩ := x; simp [h, hf]

theorem findTagWrite_cons_some {c : Char} {cs p body rest : List Char}
    (h : tryWriteAt (c :: cs) = some (p, body, rest)) :
    findTagWrite (c :: cs) = some ([], p, body, rest) := by
  conv_lhs => rw [findTagWrite]
  simp [h]

theorem findTagCmd_safe_append {s : List Char} (t : List Char)
    (hs : safeFor 'e' s = true) :
    findTagCmd (s ++ t) =
      (findTagCmd t).map (fun x => (s ++ x.1, x.2.1, x.2.2)) := by
  induction s with
  | nil =>
    simp only [List.nil_append]
    cases h : findTagCmd t with
    | none => rfl
    | some x => obtain ⟨a, b, r⟩ := x; rfl
  | cons c cs ih =>
    by_cases hlt : c = '<'
    · subst hlt
      cases cs with
      | nil => simp [safeFor] at hs
      | cons c2 cs2 =>
        rw [safeFor_lt_cons] at hs
        have hne : c2 ≠ 'e' := by
          rcases Bool.and_eq_true .. |>.mp hs with ⟨h1, _⟩
          simpa using h1
        have hrest : safeFor 'e' (c2 :: cs2) = true :=
          (Bool.and_eq_true .. |>.mp hs).2
        have htry : tryCmdAt ('<' :: ((c2 :: cs2) ++ t)) = none :=
          tryCmdAt_lt_ne (cs2 ++ t) hne
        rw [List.cons_append, findTagCmd_cons_none htry, ih hrest]
        cases h : findTagCmd t with
        | none => rfl
        | some x => obtain ⟨a, b, r⟩ := x; rfl
    · have hrest : safeFor 'e' cs = true := by
        rw [safeFor_cons_ne 'e' cs hlt] at hs
        exact hs
      have htry : tryCmdAt (c :: (cs ++ t)) = none :=
        tryCmdAt_ne_lt (cs ++ t) hlt
      rw [List.cons_append, findTagCmd_cons_none htry, ih hrest]
      cases h : findTagCmd t with
      | none => rfl
      | some x => obtain ⟨a, b, r⟩ := x; rfl

theorem findTagWrite_safe_append {s : List Char} (t : List Char)
    (hs : safeFor 'w' s = true) :
    findTagWrite (s ++ t) =
      (findTagWrite t).map (fun x => (s ++ x.1, x.2.1, x.2.2.1, x.2.2.2)) := by
  induction s with
  | nil =>
    simp only [List.nil_append]
    cases h : findTagWrite t with
    | none => rfl
    | some x => obtain ⟨a, p, b, r⟩ := x; rfl
  | cons c cs ih =>
    by_cases hlt : c = '<'
    · subst hlt
      cases cs with
      | nil => simp [safeFor] at hs
      | cons c2 cs2 =>
        rw [safeFor_lt_cons] at hs
        have hne : c2 ≠ 'w' := by
          rcases Bool.and_eq_true .. |>.mp hs with ⟨h1, _⟩
          simpa using h1
        have hrest : safeFor 'w' (c2 :: cs2) = true :=
          (Bool.and_eq_true .. |>.mp hs).2
        have htry : tryWriteAt ('<' :: ((c2 :: cs2) ++ t)) = none :=
          tryWriteAt_lt_ne (cs2 ++ t) hne
        rw [List.cons_append, findTagWrite_cons_none htry, ih hrest]
        cases h : findTagWrite t with
        | none => rfl
        | some x => obtain ⟨a, p, b, r⟩ := x; rfl
    · have hrest : safeFor 'w' cs = true := by
        rw [safeFor_cons_ne 'w' cs hlt] at hs
        exact hs
      have htry : tryWriteAt (c :: (cs ++ t)) = none :=
        tryWriteAt_ne_lt (cs ++ t) hlt
      rw [List.cons_append, findTagWrite_cons_none htry, ih hrest]
      cases h : findTagWrite t with
      | none => rfl
      | some x => obtain ⟨a, p, b, r⟩ := x; rfl

theorem findTagCmd_render (body t : List Char) (hb : noLt body) :
    findTagCmd (cmdOpenT ++ (body ++ (cmdCloseT ++ t))) = some ([], body, t) := by
  have h := tryCmdAt_render body t hb
  rw [cmdOpenT_cons] at h ⊢
  simp only [List.cons_append] at h ⊢
  exact findTagCmd_cons_some h

theorem findTagWrite_render (p c t : List Char) (hp0 : p ≠ []) (hpq : '"' ∉ p)
    (hc : noLt c) :
    findTagWrite (wOpenT ++ ' ' :: (pathAttrT ++ (p ++ '"' :: '>' :: (c ++ (wCloseT ++ t))))) =
      some ([], p, c, t) := by
  have h := tryWriteAt_render p c t hp0 hpq hc
  rw [wOpenT_cons] at h ⊢
  simp only [List.cons_append] at h ⊢
  exact findTagWrite_cons_some h

/-! ### Safety of rendered items for the two scanners -/

theorem noLt_append {u v : List Char} (hu : noLt u) (hv : noLt v) :
    noLt (u ++ v) := fun hm => (List.mem_append.mp hm).elim hu hv

theorem noLt_cons {c : Char} {v : List Char} (hc : c ≠ '<') (hv : noLt v) :
    noLt (c :: v) := by
  intro hm
  rcases List.mem_cons.mp hm with h | h
  · exact hc h.symm
  · exact hv h

theorem safe_e_fw {p c : List Char} (hp : '<' ∉ p) (hc : noLt c) :
    safeFor 'e' (renderItem (Item.fw p c)) = true := by
  have hbig : noLt (("rite_file".data ++ (' ' :: (pathAttrT ++ (p ++ '"' :: '>' :: c))))) := by
    refine noLt_append (show '<' ∉ "rite_file".data by decide)
      (noLt_cons (by decide) ?_)
    exact noLt_append (show '<' ∉ pathAttrT by decide)
      (noLt_append hp (noLt_cons (by decide) (noLt_cons (by decide) hc)))
  have hclose : safeFor 'e' wCloseT = true := by decide
  have hre : renderItem (Item.fw p c) =
      '<' :: 'w' :: (("rite_file".data ++ (' ' :: (pathAttrT ++ (p ++ '"' :: '>' :: c)))) ++ wCloseT) := by
    rw [renderItem, wOpenT_cons]
    simp [List.append_assoc]
  rw [hre, safeFor_lt_cons]
  have h2 : safeFor 'e' ('w' :: (("rite_file".data ++ (' ' :: (pathAttrT ++ (p ++ '"' :: '>' :: c)))) ++ wCloseT)) = true := by
    rw [safeFor_cons_ne 'e' _ (by decide)]
    exact safeFor_append_noLt hbig hclose
  rw [h2]
  decide

theorem safe_w_cmd {s : List Char} (hs : noLt s) :
    safeFor 'w' (renderItem (Item.cmd s)) = true := by
  have hbig : noLt ("xecute_command>".data ++ s) :=
    noLt_append (show '<' ∉ "xecute_command>".data by decide) hs
  have hclose : safeFor 'w' cmdCloseT = true := by decide
  have hre : renderItem (Item.cmd s) =
      '<' :: 'e' :: (("xecute_command>".data ++ s) ++ cmdCloseT) := by
    rw [renderItem, cmdOpenT_cons]
    simp [List.append_assoc]
  rw [hre, safeFor_lt_cons]
  have h2 : safeFor 'w' ('e' :: (("xecute_command>".data ++ s) ++ cmdCloseT)) = true := by
    rw [safeFor_cons_ne 'w' _ (by decide)]
    exact safeFor_append_noLt hbig hclose
  rw [h2]
  decide

/-! ### Extraction over rendered documents -/

theorem extractCommandsAux_safe_append {s : List Char} (t : List Char) (fuel : Nat)
    (hs : safeFor 'e' s = true) :
    extractCommandsAux fuel (s ++ t) = extractCommandsAux fuel t := by
  cases fuel with
  | zero => rfl
  | succ f =>
    simp only [extractCommandsAux]
    rw [findTagCmd_safe_append t hs]
    cases h : findTagCmd t with
    | none => rfl
    | some x => obtain ⟨a, b, r⟩ := x; rfl

theorem extractFileWritesAux_safe_append {s : List Char} (t : List Char) (fuel : Nat)
    (hs : safeFor 'w' s = true) :
    extractFileWritesAux fuel (s ++ t) = extractFileWritesAux fuel t := by
  cases fuel with
  | zero => rfl
  | succ f =>
    simp only [extractFileWritesAux]
    rw [findTagWrite_safe_append t hs]
    cases h : findTagWrite t with
    | none => rfl
    | some x => obtain ⟨a, p, b, r⟩ := x; rfl

theorem renderDoc_cmd_shape (s : List Char) (d : List Item) :
    renderDoc (Item.cmd s :: d) = cmdOpenT ++ (s ++ (cmdCloseT ++ renderDoc d)) := by
  simp [renderDoc, renderItem, List.append_assoc]

theorem renderDoc_fw_shape (p c : List Char) (d : List Item) :
    renderDoc (Item.fw p c :: d) =
      wOpenT ++ ' ' :: (pathAttrT ++ (p ++ '"' :: '>' :: (c ++ (wCloseT ++ renderDoc d)))) := by
  simp [renderDoc, renderItem, List.append_assoc]

theorem extractCommandsAux_renderDoc {d : List Item} (hw : wfDoc d) :
    ∀ fuel, (renderDoc d).length < fuel →
      extractCommandsAux fuel (renderDoc d) = docCmds d := by
  induction d with
  | nil =>
    intro fuel hf
    cases fuel with
    | zero => omega
    | succ f => rfl
  | cons i d ih =>
    intro fuel hf
    have hwd : wfDoc d := fun j hj => hw j (List.mem_cons_of_mem _ hj)
    have hwi : wfItem i := hw i (List.mem_cons_self _ _)
    cases i with
    | txt s =>
      have hlen : (renderDoc d).length < fuel := by
        rw [show renderDoc (Item.txt s :: d) = s ++ renderDoc d from rfl] at hf
        rw [List.length_append] at hf
        omega
      rw [show renderDoc (Item.txt s :: d) = s ++ renderDoc d from rfl,
        extractCommandsAux_safe_append _ _ (safeFor_of_noLt hwi), ih hwd fuel hlen]
      rfl
    | fw p c =>
      obtain ⟨hc, hp0, hpq, hplt⟩ := hwi
      have hlen : (renderDoc d).length < fuel := by
        rw [show renderDoc (Item.fw p c :: d) = renderItem (Item.fw p c) ++ renderDoc d from rfl,
          List.length_append] at hf
        omega
      rw [show renderDoc (Item.fw p c :: d) = renderItem (Item.fw p c) ++ renderDoc d from rfl,
        extractCommandsAux_safe_append _ _ (safe_e_fw hplt hc), ih hwd fuel hlen]
      rfl
    | cmd s =>
      have hopen : cmdOpenT.length = 17 := by decide
      have hclose : cmdCloseT.length = 18 := by decide
      have hlen0 : (renderDoc (Item.cmd s :: d)).length =
          17 + (s.length + (18 + (renderDoc d).length)) := by
        rw [renderDoc_cmd_shape]
        simp [List.length_append, hopen, hclose]
      cases fuel with
      | zero => omega
      | succ f =>
        have hlen : (renderDoc d).length < f := by omega
        rw [renderDoc_cmd_shape]
        simp only [extractCommandsAux]
        rw [findTagCmd_render s (renderDoc d) hwi]
        dsimp only
        rw [ih hwd f hlen]
        rfl

theorem extractFileWritesAux_renderDoc {d : List Item} (hw : wfDoc d) :
    ∀ fuel, (renderDoc d).length < fuel →
      extractFileWritesAux fuel (renderDoc d) = docWrites d := by
  induction d with
  | nil =>
    intro fuel hf
    cases fuel with
    | zero => omega
    | succ f => rfl
  | cons i d ih =>
    intro fuel hf
    have hwd : wfDoc d := fun j hj => hw j (List.mem_cons_of_mem _ hj)
    have hwi : wfItem i := hw i (List.mem_cons_self _ _)
    cases i with
    | txt s =>
      have hlen : (renderDoc d).length < fuel := by
        rw [show renderDoc (Item.txt s :: d) = s ++ renderDoc d from rfl] at hf
        rw [List.length_append] at hf
        omega
      rw [show renderDoc (Item.txt s :: d) = s ++ renderDoc d from rfl,
        extractFileWritesAux_safe_append _ _ (safeFor_of_noLt hwi), ih hwd fuel hlen]
      rfl
    | cmd s =>
      have hlen : (renderDoc d).length < fuel := by
        rw [show renderDoc (Item.cmd s :: d) = renderItem (Item.cmd s) ++ renderDoc d from rfl,
          List.length_append] at hf
        omega
      rw [show renderDoc (Item.cmd s :: d) = renderItem (Item.cmd s) ++ renderDoc d from rfl,
        extractFileWritesAux_safe_append _ _ (safe_w_cmd hwi), ih hwd fuel hlen]
      rfl
    | fw p c =>
      obtain ⟨hc, hp0, hpq, hplt⟩ := hwi
      have hlen0 : (renderDoc (Item.fw p c :: d)).length =
          (renderItem (Item.fw p c)).length + (renderDoc d).length := by
        rw [show renderDoc (Item.fw p c :: d) = renderItem (Item.fw p c) ++ renderDoc d from rfl,
          List.length_append]
      have hpos : 0 < (renderItem (Item.fw p c)).length := by
        rw [renderItem, wOpenT_cons]
        simp
      cases fuel with
      | zero => omega
      | succ f =>
        have hlen : (renderDoc d).length < f := by omega
        rw [renderDoc_fw_shape]
        simp only [extractFileWritesAux]
        rw [findTagWrite_render p c (renderDoc d) hp0 hpq hc]
        dsimp only
        rw [ih hwd f hlen]
        rfl

theorem extractCommands_renderDoc {d : List Item} (hw : wfDoc d) :
    extractCommands (renderDoc d) = docCmds d :=
  extractCommandsAux_renderDoc hw _ (Nat.lt_succ_self _)

theorem extractFileWrites_renderDoc {d : List Item} (hw : wfDoc d) :
    extractFileWrites (renderDoc d) = docWrites d :=
  extractFileWritesAux_renderDoc hw _ (Nat.lt_succ_self _)

/-! ### Tag removal over rendered documents -/

theorem replaceCmdAux_safe_append {s : List Char} (t : List Char) (fuel : Nat)
    (hs : safeFor 'e' s = true) :
    replaceCmdAux fuel (s ++ t) = s ++ replaceCmdAux fuel t := by
  cases fuel with
  | zero => rfl
  | succ f =>
    simp only [replaceCmdAux]
    rw [findTagCmd_safe_append t hs]
    cases h : findTagCmd t with
    | none => rfl
    | some x =>
      obtain ⟨a, b, r⟩ := x
      simp [List.append_assoc]

theorem replaceWriteAux_safe_append {s : List Char} (t : List Char) (fuel : Nat)
    (hs : safeFor 'w' s = true) :
    replaceWriteAux fuel (s ++ t) = s ++ replaceWriteAux fuel t := by
  cases fuel with
  | zero => rfl
  | succ f =>
    simp only [replaceWriteAux]
    rw [findTagWrite_safe_append t hs]
    cases h : findTagWrite t with
    | none => rfl
    | some x =>
      obtain ⟨a, p, b, r⟩ := x
      simp [List.append_assoc]

theorem replaceCmdAux_renderDoc {d : List Item} (hw : wfDoc d) :
    ∀ fuel, (renderDoc d).length < fuel →
      replaceCmdAux fuel (renderDoc d) = renderDoc (dropCmd d) := by
  induction d with
  | nil =>
    intro fuel hf
    cases fuel with
    | zero => omega
    | succ f => rfl
  | cons i d ih =>
    intro fuel hf
    have hwd : wfDoc d := fun j hj => hw j (List.mem_cons_of_mem _ hj)
    have hwi : wfItem i := hw i (List.mem_cons_self _ _)
    cases i with
    | txt s =>
      have hlen : (renderDoc d).length < fuel := by
        rw [show renderDoc (Item.txt s :: d) = s ++ renderDoc d from rfl,
          List.length_append] at hf
        omega
      rw [show renderDoc (Item.txt s :: d) = s ++ renderDoc d from rfl,
        replaceCmdAux_safe_append _ _ (safeFor_of_noLt hwi), ih hwd fuel hlen]
      rfl
    | fw p c =>
      obtain ⟨hc, hp0, hpq, hplt⟩ := hwi
      have hlen : (renderDoc d).length < fuel := by
        rw [show renderDoc (Item.fw p c :: d) = renderItem (Item.fw p c) ++ renderDoc d from rfl,
          List.length_append] at hf
        omega
      rw [show renderDoc (Item.fw p c :: d) = renderItem (Item.fw p c) ++ renderDoc d from rfl,
        replaceCmdAux_safe_append _ _ (safe_e_fw hplt hc), ih hwd fuel hlen]
      rfl
    | cmd s =>
      have hopen : cmdOpenT.length = 17 := by decide
      have hclose : cmdCloseT.length = 18 := by decide
      have hlen0 : (renderDoc (Item.cmd s :: d)).length =
          17 + (s.length + (18 + (renderDoc d).length)) := by
        rw [renderDoc_cmd_shape]
        simp [List.length_append, hopen, hclose]
      cases fuel with
      | zero => omega
      | succ f =>
        have hlen : (renderDoc d).length < f := by omega
        rw [renderDoc_cmd_shape]
        simp only [replaceCmdAux]
        rw [findTagCmd_render s (renderDoc d) hwi]
        dsimp only
        rw [ih hwd f hlen]
        rfl

theorem replaceWriteAux_renderDoc {d : List Item} (hw : wfDoc d) :
    ∀ fuel, (renderDoc d).length < fuel →
      replaceWriteAux fuel (renderDoc d) = renderDoc (dropFw d) := by
  induction d with
  | nil =>
    intro fuel hf
    cases fuel with
    | zero => omega
    | succ f => rfl
  | cons i d ih =>
    intro fuel hf
    have hwd : wfDoc d := fun j hj => hw j (List.mem_cons_of_mem _ hj)
    have hwi : wfItem i := hw i (List.mem_cons_self _ _)
    cases i with
    | txt s =>
      have hlen : (renderDoc d).length < fuel := by
        rw [show renderDoc (Item.txt s :: d) = s ++ renderDoc d from rfl,
          List.length_append] at hf
        omega
      rw [show renderDoc (Item.txt s :: d) = s ++ renderDoc d from rfl,
        replaceWriteAux_safe_append _ _ (safeFor_of_noLt hwi), ih hwd fuel hlen]
      rfl
    | cmd s =>
      have hlen : (renderDoc d).length < fuel := by
        rw [show renderDoc (Item.cmd s :: d) = renderItem (Item.cmd s) ++ renderDoc d from rfl,
          List.length_append] at hf
        omega
      rw [show renderDoc (Item.cmd s :: d) = renderItem (Item.cmd s) ++ renderDoc d from rfl,
        replaceWriteAux_safe_append _ _ (safe_w_cmd hwi), ih hwd fuel hlen]
      rfl
    | fw p c =>
      obtain ⟨hc, hp0, hpq, hplt⟩ := hwi
      have hlen0 : (renderDoc (Item.fw p c :: d)).length =
          (renderItem (Item.fw p c)).length + (renderDoc d).length := by
        rw [show renderDoc (Item.fw p c :: d) = renderItem (Item.fw p c) ++ renderDoc d from rfl,
          List.length_append]
      have hpos : 0 < (renderItem (Item.fw p c)).length := by
        rw [renderItem, wOpenT_cons]
        simp
      cases fuel with
      | zero => omega
      | succ f =>
        have hlen : (renderDoc d).length < f := by omega
        rw [renderDoc_fw_shape]
        simp only [replaceWriteAux]
        rw [findTagWrite_render p c (renderDoc d) hp0 hpq hc]
        dsimp only
        rw [ih hwd f hlen]
        rfl

/-! ### Document predicates -/

/-- No `write_file` items. -/
def noFwDoc (d : List Item) : Prop := ∀ p c, Item.fw p c ∉ d

/-- Only plain text items. -/
def txtOnly (d : List Item) : Prop := ∀ i ∈ d, ∃ s, i = Item.txt s

theorem wfDoc_dropFw {d : List Item} (h : wfDoc d) : wfDoc (dropFw d) := by
  induction d with
  | nil => exact h
  | cons i d ih =>
    have hwd : wfDoc d := fun j hj => h j (List.mem_cons_of_mem _ hj)
    cases i with
    | fw p c => exact ih hwd
    | txt s =>
      intro j hj
      rcases List.mem_cons.mp hj with hj | hj
      · exact hj ▸ h _ (List.mem_cons_self _ _)
      · exact ih hwd j hj
    | cmd s =>
      intro j hj
      rcases List.mem_cons.mp hj with hj | hj
      · exact hj ▸ h _ (List.mem_cons_self _ _)
      · exact ih hwd j hj

theorem wfDoc_dropCmd {d : List Item} (h : wfDoc d) : wfDoc (dropCmd d) := by
  induction d with
  | nil => exact h
  | cons i d ih =>
    have hwd : wfDoc d := fun j hj => h j (List.mem_cons_of_mem _ hj)
    cases i with
    | cmd s => exact ih hwd
    | txt s =>
      intro j hj
      rcases List.mem_cons.mp hj with hj | hj
      · exact hj ▸ h _ (List.mem_cons_self _ _)
      · exact ih hwd j hj
    | fw p c =>
      intro j hj
      rcases List.mem_cons.mp hj with hj | hj
      · exact hj ▸ h _ (List.mem_cons_self _ _)
      · exact ih hwd j hj

theorem noFwDoc_dropFw (d : List Item) : noFwDoc (dropFw d) := by
  induction d with
  | nil => intro p c h; exact List.not_mem_nil _ h
  | cons i d ih =>
    cases i with
    | fw p c => exact ih
    | txt s =>
      intro p c h
      rcases List.mem_cons.mp h with h | h
      · exact Item.noConfusion h
      · exact ih p c h
    | cmd s =>
      intro p c h
      rcases List.mem_cons.mp h with h | h
      · exact Item.noConfusion h
      · exact ih p c h

theorem txtOnly_dropCmd_of_noFw {d : List Item} (h : noFwDoc d) :
    txtOnly (dropCmd d) := by
  induction d with
  | nil => intro i hi; exact absurd hi (List.not_mem_nil _)
  | cons i d ih =>
    have hd : noFwDoc d := fun p c hm => h p c (List.mem_cons_of_mem _ hm)
    cases i with
    | cmd s => exact ih hd
    | txt s =>
      intro j hj
      rcases List.mem_cons.mp hj with hj | hj
      · exact ⟨s, hj⟩
      · exact ih hd j hj
    | fw p c => exact absurd (List.mem_cons_self _ _) (h p c)

theorem noLt_renderDoc_txtOnly {d : List Item} (hw : wfDoc d)
    (ht : txtOnly d) : noLt (renderDoc d) := by
  induction d with
  | nil => intro h; exact List.not_mem_nil _ h
  | cons i d ih =>
    have hwd : wfDoc d := fun j hj => hw j (List.mem_cons_of_mem _ hj)
    have htd : txtOnly d := fun j hj => ht j (List.mem_cons_of_mem _ hj)
    obtain ⟨s, hs⟩ := ht i (List.mem_cons_self _ _)
    subst hs
    exact noLt_append (hw _ (List.mem_cons_self _ _)) (ih hwd htd)

/-! ### Trim structure -/

/-- Drop trailing JavaScript whitespace. -/
def rtrim (s : List Char) : List Char := (s.reverse.dropWhile isWS).reverse

theorem trimL_eq_rtrim_ltrim (s : List Char) : trimL s = rtrim (ltrim s) := rfl

theorem renderDoc_append (d1 d2 : List Item) :
    renderDoc (d1 ++ d2) = renderDoc d1 ++ renderDoc d2 := by
  induction d1 with
  | nil => rfl
  | cons i d ih => simp [renderDoc, ih, List.append_assoc]

theorem ltrim_append (u v : List Char) :
    ltrim (u ++ v) = if (ltrim u).isEmpty then ltrim v else ltrim u ++ v :=
  List.dropWhile_append

theorem rtrim_append (u v : List Char) :
    rtrim (u ++ v) =
      if (v.reverse.dropWhile isWS).isEmpty then rtrim u else u ++ rtrim v := by
  unfold rtrim
  rw [List.reverse_append, List.dropWhile_append]
  by_cases h : (v.reverse.dropWhile isWS).isEmpty
  · simp [h]
  · simp [h, List.reverse_append]

theorem dropWhile_head_not (p : Char → Bool) (s : List Char) :
    s.dropWhile p = [] ∨
      ∃ c cs, s.dropWhile p = c :: cs ∧ p c = false := by
  induction s with
  | nil => exact Or.inl rfl
  | cons c cs ih =>
    rw [List.dropWhile_cons]
    by_cases h : p c
    · simpa [h] using ih
    · exact Or.inr ⟨c, cs, by simp [h], by simpa using h⟩

theorem ltrim_eq_self_of_head {s : List Char}
    (h : ∀ c, s.head? = some c → isWS c = false) : ltrim s = s := by
  cases s with
  | nil => rfl
  | cons c cs =>
    rw [ltrim, List.dropWhile_cons, h c rfl]
    simp

theorem head_trimL_not_ws {s : List Char} :
    ∀ c, (trimL s).head? = some c → isWS c = false := by
  intro c hc
  rw [trimL] at hc
  rw [List.head?_reverse] at hc
  rcases dropWhile_head_not isWS (ltrim s).reverse with h | ⟨b, bs, h, hb⟩
  · rw [h] at hc; simp at hc
  · have hne : (ltrim s).reverse.dropWhile isWS ≠ [] := by simp [h]
    obtain ⟨u, hu⟩ := @List.dropWhile_suffix Char ((ltrim s).reverse) isWS
    have : ((ltrim s).reverse.dropWhile isWS).getLast? = (ltrim s).reverse.getLast? := by
      conv_rhs => rw [← hu]
      rw [List.getLast?_append]
      cases hg : ((ltrim s).reverse.dropWhile isWS).getLast? with
      | none => exact absurd (List.getLast?_eq_none_iff.mp hg) hne
      | some x => simp [Option.or]
    rw [this, List.getLast?_reverse] at hc
    rcases dropWhile_head_not isWS s with h2 | ⟨b2, bs2, h2, hb2⟩
    · rw [ltrim, h2] at hc; simp at hc
    · rw [ltrim, h2] at hc
      simp at hc
      rw [← hc]
      exact hb2

theorem last_trimL_not_ws {s : List Char} :
    ∀ c, (trimL s).getLast? = some c → isWS c = false := by
  intro c hc
  rw [trimL, List.getLast?_reverse] at hc
  rcases dropWhile_head_not isWS (ltrim s).reverse with h | ⟨b, bs, h, hb⟩
  · rw [h] at hc; simp at hc
  · rw [h] at hc
    simp at hc
    rw [← hc]
    exact hb

theorem trimL_idem (s : List Char) : trimL (trimL s) = trimL s := by
  have h1 : ltrim (trimL s) = trimL s :=
    ltrim_eq_self_of_head (@head_trimL_not_ws s)
  rw [trimL_eq_rtrim_ltrim (trimL s), h1]
  unfold rtrim
  have h2 : (trimL s).reverse.dropWhile isWS = (trimL s).reverse := by
    cases hv : (trimL s).reverse with
    | nil => simp
    | cons c cs =>
      have : (trimL s).getLast? = some c := by
        rw [← List.head?_reverse, hv]; rfl
      rw [List.dropWhile_cons, last_trimL_not_ws c this]
      simp
  rw [h2, List.reverse_reverse]

/-! ### ltrim / rtrim of rendered documents -/

theorem ltrim_renderDoc {d : List Item} (hw : wfDoc d) (hnf : noFwDoc d) :
    ∃ d2, wfDoc d2 ∧ noFwDoc d2 ∧ ltrim (renderDoc d) = renderDoc d2 := by
  induction d with
  | nil =>
    exact ⟨[], fun i hi => absurd hi (List.not_mem_nil _),
      fun p c hi => List.not_mem_nil _ hi, rfl⟩
  | cons i d ih =>
    have hwd : wfDoc d := fun j hj => hw j (List.mem_cons_of_mem _ hj)
    have hnfd : noFwDoc d := fun p c hm => hnf p c (List.mem_cons_of_mem _ hm)
    cases i with
    | txt s =>
      rw [show renderDoc (Item.txt s :: d) = s ++ renderDoc d from rfl, ltrim_append]
      by_cases h : (ltrim s).isEmpty
      · obtain ⟨d2, hw2, hnf2, he2⟩ := ih hwd hnfd
        exact ⟨d2, hw2, hnf2, by rw [if_pos h, he2]⟩
      · refine ⟨Item.txt (ltrim s) :: d, ?_, ?_, by rw [if_neg h]; rfl⟩
        · intro j hj
          rcases List.mem_cons.mp hj with hj | hj
          · subst hj
            exact noLt_ltrim (hw _ (List.mem_cons_self _ _))
          · exact hwd j hj
        · intro p c hm
          rcases List.mem_cons.mp hm with hm | hm
          · exact Item.noConfusion hm
          · exact hnfd p c hm
    | cmd s =>
      refine ⟨Item.cmd s :: d, hw, hnf, ?_⟩
      rw [renderDoc_cmd_shape, cmdOpenT_cons]
      rw [List.cons_append, ltrim, List.dropWhile_cons]
      rw [show isWS '<' = false from by decide]
      rw [← List.cons_append, ← cmdOpenT_cons, ← renderDoc_cmd_shape]
      simp
    | fw p c => exact absurd (List.mem_cons_self _ _) (hnf p c)

theorem reverse_renderItem_cmd (s : List Char) :
    (renderItem (Item.cmd s)).reverse =
      '>' :: ("dnammoc_etucexe/<".data ++ (s.reverse ++ cmdOpenT.reverse)) := by
  have hrev : cmdCloseT.reverse = '>' :: "dnammoc_etucexe/<".data := by decide
  rw [renderItem, List.reverse_append, List.reverse_append, hrev]
  simp [List.append_assoc]

theorem rtrim_gt {s w : List Char} (h : s.reverse = '>' :: w) :
    rtrim s = s ∧ (s.reverse.dropWhile isWS).isEmpty = false := by
  have hgt : isWS '>' = false := by decide
  constructor
  · unfold rtrim
    rw [h, List.dropWhile_cons, hgt]
    simp only [Bool.false_eq_true, if_false]
    rw [← h, List.reverse_reverse]
  · rw [h, List.dropWhile_cons, hgt]
    simp

theorem rtrim_renderDoc {d : List Item} (hw : wfDoc d) (hnf : noFwDoc d) :
    ∃ d2, wfDoc d2 ∧ noFwDoc d2 ∧ rtrim (renderDoc d) = renderDoc d2 := by
  induction d using List.reverseRecOn with
  | nil =>
    exact ⟨[], fun i hi => absurd hi (List.not_mem_nil _),
      fun p c hi => List.not_mem_nil _ hi, rfl⟩
  | append_singleton d i ih =>
    have hwd : wfDoc d := fun j hj => hw j (List.mem_append_left _ hj)
    have hnfd : noFwDoc d := fun p c hm => hnf p c (List.mem_append_left _ hm)
    have hwi : wfItem i := hw i (List.mem_append_right _ (List.mem_cons_self _ _))
    cases i with
    | txt s =>
      have hr : renderDoc (d ++ [Item.txt s]) = renderDoc d ++ s := by
        rw [renderDoc_append]
        simp [renderDoc, renderItem]
      rw [hr, rtrim_append]
      by_cases h : (s.reverse.dropWhile isWS).isEmpty
      · obtain ⟨d2, hw2, hnf2, he2⟩ := ih hwd hnfd
        exact ⟨d2, hw2, hnf2, by rw [if_pos h, he2]⟩
      · refine ⟨d ++ [Item.txt (rtrim s)], ?_, ?_, ?_⟩
        · intro j hj
          rcases List.mem_append.mp hj with hj | hj
          · exact hwd j hj
          · rcases List.mem_cons.mp hj with hj | hj
            · subst hj
              intro hm
              rw [rtrim] at hm
              rw [List.mem_reverse] at hm
              have := (List.dropWhile_sublist isWS).mem hm
              exact hwi (List.mem_reverse.mp this)
            · exact absurd hj (List.not_mem_nil _)
        · intro p c hm
          rcases List.mem_append.mp hm with hm | hm
          · exact hnfd p c hm
          · rcases List.mem_cons.mp hm with hm | hm
            · exact Item.noConfusion hm
            · exact List.not_mem_nil _ hm
        · rw [if_neg h, renderDoc_append]
          simp [renderDoc, renderItem]
    | cmd s =>
      obtain ⟨hself, hne⟩ := rtrim_gt (reverse_renderItem_cmd s)
      have hr : renderDoc (d ++ [Item.cmd s]) = renderDoc d ++ renderItem (Item.cmd s) := by
        rw [renderDoc_append]
        simp [renderDoc]
      refine ⟨d ++ [Item.cmd s], hw, hnf, ?_⟩
      rw [hr, rtrim_append, hne]
      simp only [Bool.false_eq_true, if_false]
      rw [hself, ← hr]
    | fw p c =>
      exact absurd (List.mem_append_right _ (List.mem_cons_self _ _)) (hnf p c)

theorem trimL_renderDoc {d : List Item} (hw : wfDoc d) (hnf : noFwDoc d) :
    ∃ d2, wfDoc d2 ∧ noFwDoc d2 ∧ trimL (renderDoc d) = renderDoc d2 := by
  obtain ⟨d1, hw1, hnf1, he1⟩ := ltrim_renderDoc hw hnf
  obtain ⟨d2, hw2, hnf2, he2⟩ := rtrim_renderDoc hw1 hnf1
  exact ⟨d2, hw2, hnf2, by rw [trimL_eq_rtrim_ltrim, he1, he2]⟩

/-! ### No matches in marker-free text -/

theorem noLt_findTagCmd_none {s : List Char} (h : noLt s) :
    findTagCmd s = none := by
  induction s with
  | nil => rfl
  | cons c cs ih =>
    have hc : c ≠ '<' := fun he => h (by simp [he])
    have hcs : noLt cs := fun hm => h (List.mem_cons_of_mem _ hm)
    rw [findTagCmd_cons_none (tryCmdAt_ne_lt cs hc), ih hcs]
    rfl

theorem noLt_findTagWrite_none {s : List Char} (h : noLt s) :
    findTagWrite s = none := by
  induction s with
  | nil => rfl
  | cons c cs ih =>
    have hc : c ≠ '<' := fun he => h (by simp [he])
    have hcs : noLt cs := fun hm => h (List.mem_cons_of_mem _ hm)
    rw [findTagWrite_cons_none (tryWriteAt_ne_lt cs hc), ih hcs]
    rfl

theorem replaceCmdAux_of_noLt {s : List Char} (h : noLt s) (fuel : Nat) :
    replaceCmdAux fuel s = s := by
  cases fuel with
  | zero => rfl
  | succ f =>
    simp only [replaceCmdAux]
    rw [noLt_findTagCmd_none h]

theorem replaceWriteAux_of_noLt {s : List Char} (h : noLt s) (fuel : Nat) :
    replaceWriteAux fuel s = s := by
  cases fuel with
  | zero => rfl
  | succ f =>
    simp only [replaceWriteAux]
    rw [noLt_findTagWrite_none h]

/-! ### stripTags over rendered documents -/

theorem stripTags_fixed {X : List Char} (h : noLt (trimL X)) :
    stripTags (trimL X) = trimL X := by
  have hT : trimL (trimL X) = trimL X := trimL_idem X
  unfold stripTags removeFileWriteTags removeCommandTags
  rw [replaceWriteAux_of_noLt h, hT, replaceCmdAux_of_noLt h, hT]

theorem stripTags_renderDoc_structure {d : List Item} (hw : wfDoc d) :
    ∃ d3, wfDoc d3 ∧ txtOnly d3 ∧
      stripTags (renderDoc d) = trimL (renderDoc d3) := by
  obtain ⟨d2, hw2, hnf2, he2⟩ :=
    trimL_renderDoc (wfDoc_dropFw hw) (noFwDoc_dropFw d)
  refine ⟨dropCmd d2, wfDoc_dropCmd hw2, txtOnly_dropCmd_of_noFw hnf2, ?_⟩
  unfold stripTags removeFileWriteTags removeCommandTags
  rw [replaceWriteAux_renderDoc hw _ (Nat.lt_succ_self _), he2,
    replaceCmdAux_renderDoc hw2 _ (Nat.lt_succ_self _)]

/-! ### Decidability of document well-formedness -/

instance decidableWfItem (i : Item) : Decidable (wfItem i) :=
  match i with
  | Item.txt s => inferInstanceAs (Decidable ('<' ∉ s))
  | Item.cmd s => inferInstanceAs (Decidable ('<' ∉ s))
  | Item.fw p c =>
    inferInstanceAs (Decidable ('<' ∉ c ∧ p ≠ [] ∧ '"' ∉ p ∧ '<' ∉ p))

instance decidableWfDoc (d : List Item) : Decidable (wfDoc d) :=
  inferInstanceAs (Decidable (∀ i ∈ d, wfItem i))

/-! ## Claim C4 -/

/-- Claim C4: for every text block that is the rendering of a well-formed
document with N well-formed `write_file` tags and M well-formed
`execute_command` tags, `extractFileWrites` returns exactly the N
file-write intents and `extractCommands` exactly the M command intents,
in document order within each kind, with each command (and each write
path and content) trimmed, and empty-after-trim commands (and
empty-after-trim write paths) discarded — `docCmds` and `docWrites` are
exactly those intent lists. -/
theorem C4_parser_exactness {d : List Item} (hw : wfDoc d) :
    extractCommands (renderDoc d) = docCmds d ∧
      extractFileWrites (renderDoc d) = docWrites d :=
  ⟨extractCommands_renderDoc hw, extractFileWrites_renderDoc hw⟩

/-- Concrete document used to witness claim C4: plain text, a command
with surrounding whitespace, a file write, and a whitespace-only command
(discarded). -/
def exampleDocC4 : List Item :=
  [Item.txt "Hi there. ".data, Item.cmd " ls -la ".data,
    Item.fw "a.txt".data " x ".data, Item.cmd "  ".data]

theorem C4_parser_exactness_witness :
    wfDoc exampleDocC4 ∧
      extractCommands (renderDoc exampleDocC4) = ["ls -la".data] ∧
      extractFileWrites (renderDoc exampleDocC4) = [("a.txt".data, "x".data)] := by
  refine ⟨by decide, ?_, ?_⟩
  · rw [(C4_parser_exactness (by decide)).1]
    decide
  · rw [(C4_parser_exactness (by decide)).2]
    decide

/-! ## Claim C6 -/

/-- The splicing input that refutes claim C6 as stated: removing the
embedded well-formed command tag concatenates the surrounding fragments
into a brand-new `execute_command` tag, so one stripping pass leaves tag
markers and a second pass removes more text. -/
def spliceC6 : List Char :=
  "<exec<execute_command>x</execute_command>ute_command>ls</execute_command>".data

/-- Claim C6 counterexample: on `spliceC6`, one application of the
stripping pipeline yields `<execute_command>ls</execute_command>` — a
string that still contains tag markers — and a second application is not
a no-op (it yields the empty string), refuting both halves of the claim
for arbitrary text blocks. -/
theorem C6_strip_counterexample :
    stripTags spliceC6 = "<execute_command>ls</execute_command>".data ∧
      '<' ∈ stripTags spliceC6 ∧
      stripTags (stripTags spliceC6) ≠ stripTags spliceC6 := by
  decide

/-- Claim C6 (amended): on renderings of well-formed documents (no `'<'`
outside the tags themselves), one application of the stripping pipeline
(`removeFileWriteTags` then `removeCommandTags`) removes all tag spans
and leaves a string with no tag marker `'<'` at all, and a second
application is a no-op.  On arbitrary blocks this fails, because deleting
a matched span can splice the surrounding text into a new tag
(`C6_strip_counterexample`). -/
theorem C6_strip_wf_noMarkers_idem {d : List Item} (hw : wfDoc d) :
    noLt (stripTags (renderDoc d)) ∧
      stripTags (stripTags (renderDoc d)) = stripTags (renderDoc d) := by
  obtain ⟨d3, hw3, ht3, he⟩ := stripTags_renderDoc_structure hw
  have hnl : noLt (trimL (renderDoc d3)) :=
    noLt_trimL (noLt_renderDoc_txtOnly hw3 ht3)
  constructor
  · rw [he]
    exact hnl
  · rw [he]
    exact stripTags_fixed hnl

/-- Concrete document used to witness the amended claim C6. -/
def exampleDocC6 : List Item :=
  [Item.txt " Hello ".data, Item.fw "b.txt".data "data".data,
    Item.cmd "pwd".data, Item.txt " bye ".data]

theorem C6_strip_wf_witness :
    wfDoc exampleDocC6 ∧
      noLt (stripTags (renderDoc exampleDocC6)) ∧
      stripTags (stripTags (renderDoc exampleDocC6)) = stripTags (renderDoc exampleDocC6) := by
  refine ⟨by decide, ?_, ?_⟩
  · exact (C6_strip_wf_noMarkers_idem (by decide)).1
  · exact (C6_strip_wf_noMarkers_idem (by decide)).2

/-! ## Path resolution lemmas -/

theorem splitSlash_ne_nil (u : List Char) : splitSlash u ≠ [] := by
  cases u with
  | nil => simp [splitSlash]
  | cons c cs =>
    rw [splitSlash]
    by_cases h : c = '/'
    · simp [h]
    · rw [if_neg h]
      cases hs : splitSlash cs with
      | nil => simp
      | cons seg rest => simp

theorem splitSlash_append (u v : List Char) :
    splitSlash (u ++ '/' :: v) = splitSlash u ++ splitSlash v := by
  induction u with
  | nil =>
    rw [List.nil_append]
    simp [splitSlash]
  | cons c cs ih =>
    rw [List.cons_append, splitSlash]
    by_cases h : c = '/'
    · rw [if_pos h, ih, splitSlash, if_pos h]
      rfl
    · rw [if_neg h, ih]
      rw [splitSlash, if_neg h]
      cases hs : splitSlash cs with
      | nil => exact absurd hs (splitSlash_ne_nil cs)
      | cons seg rest => simp

theorem splitSlash_no_slash {u : List Char} (h : '/' ∉ u) :
    splitSlash u = [u] := by
  induction u with
  | nil => rfl
  | cons c cs ih =>
    have hc : c ≠ '/' := fun he => h (by simp [he])
    have hcs : '/' ∉ cs := fun hm => h (List.mem_cons_of_mem _ hm)
    rw [splitSlash, if_neg hc, ih hcs]

theorem joinSlash_append_ne {xs ys : List (List Char)} (hx : xs ≠ [])
    (hy : ys ≠ []) :
    joinSlash (xs ++ ys) = joinSlash xs ++ '/' :: joinSlash ys := by
  induction xs with
  | nil => exact absurd rfl hx
  | cons x xs ih =>
    cases xs with
    | nil =>
      cases ys with
      | nil => exact absurd rfl hy
      | cons y r => rfl
    | cons x2 r2 =>
      have := ih (by simp)
      rw [List.cons_append]
      rw [show joinSlash (x :: ((x2 :: r2) ++ ys)) = x ++ '/' :: joinSlash ((x2 :: r2) ++ ys) from rfl]
      rw [this, show joinSlash (x :: x2 :: r2) = x ++ '/' :: joinSlash (x2 :: r2) from rfl]
      simp [List.append_assoc]

theorem splitSlash_joinSlash {segs : List (List Char)} (hc : cleanSegs segs)
    (hne : segs ≠ []) : splitSlash (joinSlash segs) = segs := by
  induction segs with
  | nil => exact absurd rfl hne
  | cons x xs ih =>
    have hx : cleanSeg x := hc x (List.mem_cons_self _ _)
    have hxs : cleanSegs xs := fun s hs => hc s (List.mem_cons_of_mem _ hs)
    cases xs with
    | nil =>
      rw [show joinSlash [x] = x from rfl]
      exact splitSlash_no_slash hx.2.2.2
    | cons y r =>
      rw [show joinSlash (x :: y :: r) = x ++ '/' :: joinSlash (y :: r) from rfl]
      rw [splitSlash_append, splitSlash_no_slash hx.2.2.2, ih hxs (by simp)]
      rfl

theorem normSegs_empty_skip (st : List (List Char)) (r : List (List Char)) :
    normSegs st ([] :: r) = normSegs st r := by
  rw [normSegs]
  simp

theorem normSegs_clean_step {seg : List Char} (hc : cleanSeg seg)
    (st r : List (List Char)) :
    normSegs st (seg :: r) = normSegs (st ++ [seg]) r := by
  obtain ⟨h1, h2, h3, _⟩ := hc
  rw [normSegs]
  rw [if_neg (by simp [h1, h2]), if_neg h3]

theorem normSegs_clean_all {segs : List (List Char)} (hc : cleanSegs segs)
    (st r : List (List Char)) :
    normSegs st (segs ++ r) = normSegs (st ++ segs) r := by
  induction segs generalizing st with
  | nil => simp
  | cons x xs ih =>
    have hx : cleanSeg x := hc x (List.mem_cons_self _ _)
    have hxs : cleanSegs xs := fun s hs => hc s (List.mem_cons_of_mem _ hs)
    rw [List.cons_append, normSegs_clean_step hx, ih hxs]
    simp

theorem head_renderAbs (segs : List (List Char)) :
    (renderAbs segs).head? = some '/' := rfl

/-- `path.resolve(root, rel)` on a normalized absolute `root` and a
relative `rel` is the stack normalization of `rel`'s segments pushed on
`root`'s segments. -/
theorem posixResolve_norm {segs : List (List Char)} (rel : List Char)
    (hc : cleanSegs segs) (hrel : rel.head? ≠ some '/') :
    posixResolve (renderAbs segs) rel =
      renderAbs (normSegs segs (splitSlash rel)) := by
  have hcomb : posixResolve (renderAbs segs) rel =
      renderAbs (normSegs [] (splitSlash (renderAbs segs ++ '/' :: rel))) := by
    unfold posixResolve
    rw [if_neg hrel]
  rw [hcomb]
  cases hs : segs with
  | nil =>
    rw [show renderAbs [] = ['/'] from rfl]
    rw [show (['/'] : List Char) ++ '/' :: rel = '/' :: ('/' :: rel) from rfl]
    have h1 : splitSlash ('/' :: ('/' :: rel)) = [] :: ([] :: splitSlash rel) := by
      simp [splitSlash]
    rw [h1, normSegs_empty_skip, normSegs_empty_skip]
  | cons s ss =>
    subst hs
    rw [show renderAbs (s :: ss) ++ '/' :: rel =
      '/' :: (joinSlash (s :: ss) ++ '/' :: rel) from rfl]
    have h2 : splitSlash ('/' :: (joinSlash (s :: ss) ++ '/' :: rel)) =
        [] :: splitSlash (joinSlash (s :: ss) ++ '/' :: rel) := by
      simp [splitSlash]
    rw [h2, splitSlash_append, splitSlash_joinSlash hc (by simp),
      normSegs_empty_skip, normSegs_clean_all hc]
    simp

theorem isPrefixOf_append_self (l t : List Char) :
    l.isPrefixOf (l ++ t) = true := by
  induction l with
  | nil => simp [List.isPrefixOf]
  | cons c cs ih => simp [List.isPrefixOf, ih]

theorem renderAbs_append_prefix (segs ys : List (List Char)) (hy : ys ≠ []) :
    ∃ t, renderAbs (segs ++ ys) = renderAbs segs ++ t := by
  cases segs with
  | nil => exact ⟨joinSlash ys, rfl⟩
  | cons s ss =>
    refine ⟨'/' :: joinSlash ys, ?_⟩
    rw [renderAbs, renderAbs, joinSlash_append_ne (by simp) hy]
    rfl

theorem validatePath_eq (root p : List Char) :
    validatePath root p =
      if root.isPrefixOf (posixResolve root p) then
        Except.ok (posixResolve root p)
      else Except.error "Access denied: Path is outside working directory" := rfl

theorem normSegs_dotdot (st r : List (List Char)) :
    normSegs st (['.', '.'] :: r) = normSegs st.dropLast r := by
  rw [normSegs]
  rw [if_neg (by simp), if_pos rfl]

instance decidableCleanSeg (seg : List Char) : Decidable (cleanSeg seg) :=
  inferInstanceAs (Decidable (_ ∧ _ ∧ _ ∧ _))

instance decidableCleanSegs (segs : List (List Char)) :
    Decidable (cleanSegs segs) :=
  inferInstanceAs (Decidable (∀ seg ∈ segs, cleanSeg seg))

/-! ## Claim C1 -/

/-- Claim C1 counterexample: `validatePath` does not fail exactly when
the resolved path lies outside the root.  Against root `/a/b`, the
relative path `../bc` resolves to the sibling `/a/bc`, which is not
under `/a/b`, yet validation succeeds (the check is a string-prefix
test).  And `../../etc/passwd` does not fail against every root: against
root `/etc` it resolves to `/etc/passwd` and succeeds. -/
theorem C1_validatePath_counterexample :
    validatePath "/a/b".data "../bc".data = Except.ok "/a/bc".data ∧
      isUnder "/a/b".data "/a/bc".data = false ∧
      validatePath "/etc".data "../../etc/passwd".data =
        Except.ok "/etc/passwd".data :=
  ⟨rfl, by decide, rfl⟩

/-- Claim C1 (amended): for a normalized absolute root,
`validatePath` fails with `Access denied` exactly when the normalized
result of `root + relativePath` does not have the root as a *string
prefix* (a weaker condition than lying under the root: sibling paths
sharing the root as a string prefix are admitted, and `../../etc/passwd`
is rejected only when the resolved string does not start with the root).
The positive example holds as claimed: `a/b/../c` normalizes to
`root/a/c` and succeeds. -/
theorem C1_validatePath_amended {segs : List (List Char)}
    (hc : cleanSegs segs) :
    (∀ rel, (renderAbs segs).isPrefixOf (posixResolve (renderAbs segs) rel) = false →
        validatePath (renderAbs segs) rel =
          Except.error "Access denied: Path is outside working directory") ∧
    (∀ rel, (renderAbs segs).isPrefixOf (posixResolve (renderAbs segs) rel) = true →
        validatePath (renderAbs segs) rel =
          Except.ok (posixResolve (renderAbs segs) rel)) ∧
    posixResolve (renderAbs segs) "a/b/../c".data =
      renderAbs (segs ++ ["a".data, "c".data]) ∧
    validatePath (renderAbs segs) "a/b/../c".data =
      Except.ok (renderAbs (segs ++ ["a".data, "c".data])) := by
  have hsplit : splitSlash "a/b/../c".data =
      ["a".data, "b".data, "..".data, "c".data] := by decide
  have hdots : "..".data = ['.', '.'] := by decide
  have hnorm : posixResolve (renderAbs segs) "a/b/../c".data =
      renderAbs (segs ++ ["a".data, "c".data]) := by
    rw [posixResolve_norm "a/b/../c".data hc (by decide), hsplit]
    rw [normSegs_clean_step (by decide), normSegs_clean_step (by decide), hdots,
      normSegs_dotdot]
    have hd : ((segs ++ ["a".data]) ++ ["b".data]).dropLast = segs ++ ["a".data] := by
      simp
    rw [hd, normSegs_clean_step (by decide)]
    rw [show ∀ st : List (List Char), normSegs st [] = st from fun st => rfl]
    simp [List.append_assoc]
  refine ⟨?_, ?_, hnorm, ?_⟩
  · intro rel h
    rw [validatePath_eq, h]
    rfl
  · intro rel h
    rw [validatePath_eq, h]
    rfl
  · obtain ⟨t, ht⟩ := renderAbs_append_prefix segs ["a".data, "c".data] (by simp)
    rw [validatePath_eq, hnorm, ht, isPrefixOf_append_self]
    rfl

theorem C1_validatePath_amended_witness :
    cleanSegs ["a".data, "b".data] ∧
      validatePath (renderAbs ["a".data, "b".data]) "a/b/../c".data =
        Except.ok (renderAbs (["a".data, "b".data] ++ ["a".data, "c".data])) :=
  ⟨by decide, (C1_validatePath_amended (by decide)).2.2.2⟩

/-! ## Claim C9 -/

/-- Claim C9: `exists` is total — it is a boolean function by
construction, mirroring the `try/catch` that swallows every failure —
and it returns `true` exactly when the sandbox validation succeeds
(the resolved path passes the prefix check) and the filesystem probe
succeeds.  In particular a sandbox violation, which `validatePath`
reports by throwing `Access denied` (surfaced as `AccessDenied` by other
operations), yields `false`. -/
theorem C9_existsFile_total_swallows (access : List Char → Bool)
    (root p : List Char) :
    existsFile access root p = true ↔
      (validatePath root p = Except.ok (posixResolve root p) ∧
        access (posixResolve root p) = true) := by
  by_cases h : root.isPrefixOf (posixResolve root p) = true
  · simp [existsFile, validatePath_eq, h]
  · simp [existsFile, validatePath_eq, h]

/-! ## Session model lemmas -/

theorem writeFileStep_events (sess : Session) (p c : String)
    (o : WriteOutcome) : (writeFileStep sess p c o).2 = [Event.fsWrite p] := by
  cases o <;> rfl

theorem executeCommand_events (sess : Session) (c : String) (child : ChildRun) :
    (executeCommand sess c child).2 = [Event.cmdExec c] := by
  unfold executeCommand
  cases h : execSyncModel c child <;> simp

theorem foldWrites_events (env : Env) (sess : Session)
    (ws : List (String × String)) :
    (foldWrites env sess ws).2 = ws.map (fun w => Event.fsWrite w.1) := by
  induction ws generalizing sess with
  | nil => rfl
  | cons w ws ih =>
    obtain ⟨p, c⟩ := w
    simp [foldWrites, writeFileStep_events, ih]

theorem foldCmds_events (env : Env) (sess : Session) (cs : List String) :
    (foldCmds env sess cs).2 = cs.map Event.cmdExec := by
  induction cs generalizing sess with
  | nil => rfl
  | cons c cs ih => simp [foldCmds, executeCommand_events, ih]

theorem writeFileStep_messages (sess : Session) (p c : String)
    (o : WriteOutcome) :
    ∃ m : Msg, m.role = Role.system ∧
      (writeFileStep sess p c o).1.messages = sess.messages ++ [m] := by
  cases o with
  | success => exact ⟨_, rfl, rfl⟩
  | failure emsg => exact ⟨_, rfl, rfl⟩

theorem executeCommand_messages (sess : Session) (c : String)
    (child : ChildRun) :
    ∃ m : Msg, m.role = Role.system ∧
      (executeCommand sess c child).1.messages = sess.messages ++ [m] := by
  unfold executeCommand
  cases h : execSyncModel c child with
  | ok out => exact ⟨_, rfl, rfl⟩
  | error e => exact ⟨_, rfl, rfl⟩

theorem foldWrites_messages (env : Env) (sess : Session)
    (ws : List (String × String)) :
    ∃ mid, (foldWrites env sess ws).1.messages = sess.messages ++ mid ∧
      ∀ m ∈ mid, m.role = Role.system := by
  induction ws generalizing sess with
  | nil => exact ⟨[], by simp [foldWrites], by simp⟩
  | cons w ws ih =>
    obtain ⟨p, c⟩ := w
    obtain ⟨m, hm, hmsg⟩ := writeFileStep_messages sess p c (env.wout p c)
    obtain ⟨mid, hmid, hall⟩ := ih ((writeFileStep sess p c (env.wout p c)).1)
    refine ⟨m :: mid, ?_, ?_⟩
    · simp [foldWrites, hmid, hmsg, List.append_assoc]
    · intro x hx
      rcases List.mem_cons.mp hx with hx | hx
      · exact hx ▸ hm
      · exact hall x hx

theorem foldCmds_messages (env : Env) (sess : Session) (cs : List String) :
    ∃ mid, (foldCmds env sess cs).1.messages = sess.messages ++ mid ∧
      ∀ m ∈ mid, m.role = Role.system := by
  induction cs generalizing sess with
  | nil => exact ⟨[], by simp [foldCmds], by simp⟩
  | cons c cs ih =>
    obtain ⟨m, hm, hmsg⟩ := executeCommand_messages sess c (env.child c)
    obtain ⟨mid, hmid, hall⟩ := ih ((executeCommand sess c (env.child c)).1)
    refine ⟨m :: mid, ?_, ?_⟩
    · simp [foldCmds, hmid, hmsg, List.append_assoc]
    · intro x hx
      rcases List.mem_cons.mp hx with hx | hx
      · exact hx ▸ hm
      · exact hall x hx

/-! ## Claim C3 -/

/-- Claim C3: within one response-handling cycle, the event trace of
`processMessage`'s reply handling is exactly all file-write accessor
calls (in parser order), then all command executions (in parser order),
then the commit of the assistant message to Conversation State — so
every write precedes every command, and both precede the assistant
append. -/
theorem C3_writes_before_commands_before_append (env : Env) (sess : Session)
    (reply : String) :
    (processReply env sess reply).2 =
      (intentPairs reply.data).map (fun w => Event.fsWrite w.1) ++
        ((intentCmds reply.data).map Event.cmdExec ++ [Event.appendAssistant]) := by
  unfold processReply
  by_cases h : (intentPairs reply.data).isEmpty = true ∧ (intentCmds reply.data).isEmpty = true
  · rw [if_pos h]
    obtain ⟨h1, h2⟩ := h
    rw [List.isEmpty_iff] at h1 h2
    simp [h1, h2]
  · rw [if_neg h]
    simp [foldWrites_events, foldCmds_events]

/-! ## Claim C7 -/

/-- Claim C7: the assistant message appended to Conversation State is
the raw reply verbatim (tags included) — the handling only inserts
system-role tool-outcome messages before it; and for a reply with zero
tags the new message log is exactly the old log plus the verbatim
assistant message, with no filesystem or shell events at all. -/
theorem C7_reply_verbatim (env : Env) (sess : Session) (reply : String) :
    (∃ mid, (processReply env sess reply).1.messages =
        sess.messages ++ mid ++ [⟨Role.assistant, reply⟩] ∧
        ∀ m ∈ mid, m.role = Role.system) ∧
    (extractFileWrites reply.data = [] → extractCommands reply.data = [] →
      (processReply env sess reply).1.messages =
          sess.messages ++ [⟨Role.assistant, reply⟩] ∧
        (processReply env sess reply).2 = [Event.appendAssistant]) := by
  constructor
  · unfold processReply
    by_cases h : (intentPairs reply.data).isEmpty = true ∧ (intentCmds reply.data).isEmpty = true
    · rw [if_pos h]
      exact ⟨[], by simp, by simp⟩
    · rw [if_neg h]
      obtain ⟨mid1, hmid1, hall1⟩ := foldWrites_messages env sess (intentPairs reply.data)
      obtain ⟨mid2, hmid2, hall2⟩ :=
        foldCmds_messages env (foldWrites env sess (intentPairs reply.data)).1
          (intentCmds reply.data)
      refine ⟨mid1 ++ mid2, ?_, ?_⟩
      · simp only []
        rw [hmid2, hmid1]
        simp [List.append_assoc]
      · intro m hm
        rcases List.mem_append.mp hm with hm | hm
        · exact hall1 m hm
        · exact hall2 m hm
  · intro h1 h2
    have hp : intentPairs reply.data = [] := by
      rw [intentPairs, h1]
      rfl
    have hcq : intentCmds reply.data = [] := by
      rw [intentCmds, h2]
      rfl
    unfold processReply
    rw [if_pos (by simp [hp, hcq])]
    exact ⟨by simp, rfl⟩

/-- Concrete zero-tag environment and session used for the C7 witness. -/
def env0 : Env :=
  { wout := fun _ _ => WriteOutcome.success,
    child := fun _ => ChildRun.runs "" "" 0 }

/-- Empty initial session (fresh `CodeAssistant` state without the
system prompt, irrelevant to the property). -/
def sess0 : Session := { messages := [], filesModified := [], commandsExecuted := [] }

theorem C7_reply_verbatim_witness :
    extractFileWrites "hello".data = [] ∧ extractCommands "hello".data = [] ∧
      (processReply env0 sess0 "hello").1.messages =
        [⟨Role.assistant, "hello"⟩] ∧
      (processReply env0 sess0 "hello").2 = [Event.appendAssistant] := by
  have h := (C7_reply_verbatim env0 sess0 "hello").2 (by decide) (by decide)
  exact ⟨by decide, by decide, by simpa using h.1, h.2⟩

/-! ## Claim C8 -/

/-- Claim C8: when a command fails — non-zero exit within the output cap,
or a launch failure — the catch branch appends exactly one system
message carrying the captured stderr, or the error's generic
`Command failed: <command>` message when stderr is empty or absent, to
the conversation (the same line is printed for the user); the command is
not recorded as executed, and the loop is not aborted: the remaining
commands of the cycle still produce their executor calls. -/
theorem C8_failure_surfaced_not_fatal :
    (∀ (sess : Session) (command stdout stderr : String) (code : Nat),
        stdout.length ≤ maxBufferBytes → stderr.length ≤ maxBufferBytes →
        code ≠ 0 → stderr.isEmpty = false →
        (executeCommand sess command (ChildRun.runs stdout stderr code)).1.messages =
          sess.messages ++
            [⟨Role.system, "Command failed: " ++ command ++ "\nError: " ++ stderr⟩]) ∧
    (∀ (sess : Session) (command stdout : String) (code : Nat),
        stdout.length ≤ maxBufferBytes → code ≠ 0 →
        (executeCommand sess command (ChildRun.runs stdout "" code)).1.messages =
          sess.messages ++
            [⟨Role.system, "Command failed: " ++ command ++ "\nError: " ++
              ("Command failed: " ++ command)⟩]) ∧
    (∀ (sess : Session) (command emsg : String),
        (executeCommand sess command (ChildRun.launchFail emsg)).1.messages =
          sess.messages ++
            [⟨Role.system, "Command failed: " ++ command ++ "\nError: " ++ emsg⟩]) ∧
    (∀ (env : Env) (sess : Session) (cs : List String),
        (foldCmds env sess cs).2 = cs.map Event.cmdExec) := by
  refine ⟨?_, ?_, ?_, foldCmds_events⟩
  · intro sess command stdout stderr code h1 h2 h3 h4
    have h1' : ¬ maxBufferBytes < stdout.length := by omega
    have h2' : ¬ maxBufferBytes < stderr.length := by omega
    have hexec : execSyncModel command (ChildRun.runs stdout stderr code) =
        Except.error (ExecError.mk (some stderr) ("Command failed: " ++ command ++
          (if stderr.isEmpty then "" else "\n" ++ stderr))) := by
      unfold execSyncModel
      dsimp only
      rw [if_neg h1', if_neg h2', if_pos h3]
    unfold executeCommand
    rw [hexec]
    simp [h4]
  · intro sess command stdout code h1 h3
    have h1' : ¬ maxBufferBytes < stdout.length := by omega
    have h2' : ¬ maxBufferBytes < ("" : String).length := by
      rw [show ("" : String).length = 0 from rfl]
      omega
    have hexec : execSyncModel command (ChildRun.runs stdout "" code) =
        Except.error (ExecError.mk (some "") ("Command failed: " ++ command ++
          (if ("" : String).isEmpty then "" else "\n" ++ ("" : String)))) := by
      unfold execSyncModel
      dsimp only
      rw [if_neg h1', if_neg h2', if_pos h3]
    unfold executeCommand
    rw [hexec]
    simp [show ("" : String).isEmpty = true from rfl]
  · intro sess command emsg
    rfl

theorem C8_failure_surfaced_witness :
    ("ls".length ≤ maxBufferBytes ∧ "boom".length ≤ maxBufferBytes ∧
      (2 : Nat) ≠ 0 ∧ "boom".isEmpty = false) ∧
      (executeCommand sess0 "ls" (ChildRun.runs "ls" "boom" 2)).1.messages =
        [⟨Role.system, "Command failed: ls\nError: boom"⟩] := by
  refine ⟨⟨by decide, by decide, by decide, by decide⟩, ?_⟩
  have h := C8_failure_surfaced_not_fatal.1 sess0 "ls" "ls" "boom" 2
    (by decide) (by decide) (by decide) (by decide)
  simpa [sess0] using h

/-! ## Claim C10 -/

/-- Claim C10: the session log records only successes — a failed file
write leaves `filesModified` unchanged (a `File write failed` system
message is appended instead), and a failed command leaves
`commandsExecuted` unchanged (a `Command failed` system message is
appended instead), so the end-of-task summary counts only successful
operations. -/
theorem C10_log_records_only_successes :
    (∀ (sess : Session) (p c emsg : String),
        (writeFileStep sess p c (WriteOutcome.failure emsg)).1.filesModified =
          sess.filesModified ∧
        (writeFileStep sess p c (WriteOutcome.failure emsg)).1.messages =
          sess.messages ++
            [⟨Role.system, "File write failed for " ++ p ++ ": " ++ emsg⟩]) ∧
    (∀ (sess : Session) (command : String) (child : ChildRun) (e : ExecError),
        execSyncModel command child = Except.error e →
        (executeCommand sess command child).1.commandsExecuted =
            sess.commandsExecuted ∧
          ∃ m : Msg, m.role = Role.system ∧
            (executeCommand sess command child).1.messages =
              sess.messages ++ [m]) := by
  constructor
  · intro sess p c emsg
    exact ⟨rfl, rfl⟩
  · intro sess command child e he
    unfold executeCommand
    rw [he]
    exact ⟨rfl, _, rfl, rfl⟩

theorem C10_log_records_only_successes_witness :
    execSyncModel "make" (ChildRun.runs "" "no rule" 2) =
        Except.error (ExecError.mk (some "no rule") "Command failed: make\nno rule") ∧
      (writeFileStep sess0 "a.txt" "x" (WriteOutcome.failure "EACCES")).1.filesModified = [] ∧
      (executeCommand sess0 "make" (ChildRun.runs "" "no rule" 2)).1.commandsExecuted = [] := by
  refine ⟨by rfl, ?_, ?_⟩
  · exact (C10_log_records_only_successes.1 sess0 "a.txt" "x" "EACCES").1
  · exact (C10_log_records_only_successes.2 sess0 "make"
      (ChildRun.runs "" "no rule" 2) _ (by rfl)).1

/-! ## Claim C5 -/

/-- A stdout of one byte more than the 10 MiB `maxBuffer` cap. -/
def bigOut : String := String.mk (List.replicate (maxBufferBytes + 1) 'a')

theorem bigOut_length : maxBufferBytes < bigOut.length := by
  rw [show bigOut.length = (List.replicate (maxBufferBytes + 1) 'a').length from rfl,
    List.length_replicate]
  omega

theorem execSyncModel_overcap {stdout : String} (command stderr : String)
    (code : Nat) (h : maxBufferBytes < stdout.length) :
    execSyncModel command (ChildRun.runs stdout stderr code) =
      Except.error (ExecError.mk (some (strTake stderr maxBufferBytes))
        "stdout maxBuffer length exceeded") := by
  unfold execSyncModel
  dsimp only
  rw [if_pos h]

/-- Unfolding of `executeCommand` on a failing `execSync` call: the
catch branch appends the failure system message and records nothing. -/
theorem executeCommand_error_eq (sess : Session) (c : String)
    (child : ChildRun) (e : ExecError)
    (h : execSyncModel c child = Except.error e) :
    executeCommand sess c child =
      ({ sess with messages := sess.messages ++
          [⟨Role.system, "Command failed: " ++ c ++ "\nError: " ++
            (match e.stderr with
              | some s => if s.isEmpty then e.message else s
              | none => e.message)⟩] },
        [Event.cmdExec c]) := by
  unfold executeCommand
  rw [h]

/-- Claim C5 counterexample: when command stdout exceeds the 10 MiB cap,
the operation does *not* report success — `execSync` terminates the
child and throws `ERR_CHILD_PROCESS_STDIO_MAXBUFFER`, so the catch
branch runs: nothing is recorded in `commandsExecuted` and a
`Command failed` system message is appended instead. -/
theorem C5_overcap_counterexample :
    (executeCommand sess0 "yes" (ChildRun.runs bigOut "" 0)).1.commandsExecuted = [] ∧
      (executeCommand sess0 "yes" (ChildRun.runs bigOut "" 0)).1.messages =
        [⟨Role.system,
          "Command failed: yes\nError: stdout maxBuffer length exceeded"⟩] := by
  have htr : strTake "" maxBufferBytes = "" := by
    rw [strTake, show ("" : String).data = ([] : List Char) from rfl, List.take_nil]
  have hexec := execSyncModel_overcap "yes" "" 0 bigOut_length
  rw [htr] at hexec
  rw [executeCommand_error_eq sess0 "yes" _ _ hexec]
  constructor
  · rfl
  · simp [sess0, show ("" : String).isEmpty = true from rfl]

/-- Claim C5 (amended): when command stdout exceeds the fixed 10 MiB
`maxBuffer` ceiling, the captured output carried by the thrown error is
truncated to the cap (bounding memory), but the operation reports
*failure*, not success: the catch branch leaves `commandsExecuted`
unchanged and appends a `Command failed` system message. -/
theorem C5_overcap_is_failure (sess : Session)
    (command stdout stderr : String) (code : Nat)
    (h : maxBufferBytes < stdout.length) :
    (executeCommand sess command (ChildRun.runs stdout stderr code)).1.commandsExecuted =
        sess.commandsExecuted ∧
      ∃ emsg, (executeCommand sess command (ChildRun.runs stdout stderr code)).1.messages =
        sess.messages ++ [⟨Role.system, "Command failed: " ++ command ++ "\nError: " ++ emsg⟩] := by
  rw [executeCommand_error_eq sess command _ _ (execSyncModel_overcap command stderr code h)]
  exact ⟨rfl, _, rfl⟩

theorem C5_overcap_is_failure_witness :
    maxBufferBytes < bigOut.length ∧
      (executeCommand sess0 "cat data.bin" (ChildRun.runs bigOut "" 0)).1.commandsExecuted = [] :=
  ⟨bigOut_length,
    (C5_overcap_is_failure sess0 "cat data.bin" bigOut "" 0 bigOut_length).1⟩

/-! ## Claim C2 -/

/-- Claim C2: the trust invariant holds for the interactive entry point —
an untrusted workspace with a declined prompt produces no Scoped File
Accessor or Command Executor call — but it is violated by the one-shot
`--task` entry point, which never consults the trust state: dispatching
`--task` in an untrusted workspace immediately performs project-analysis
file accesses (and then executes any parsed intents). -/
theorem C2_trust_gate_violated_by_task :
    (∀ hasPkg hasTs loopEvents,
        startInteractiveEvents false false hasPkg hasTs loopEvents =
            [Event.trustPrompt] ∧
          ∀ e ∈ startInteractiveEvents false false hasPkg hasTs loopEvents,
            e.isToolCall = false) ∧
    (codeActionEvents false false true true env0 sess0 []
          (some ("add a test", "ok"))).head? =
        some (Event.fsExists "package.json") ∧
    (Event.fsExists "package.json").isToolCall = true := by
  refine ⟨?_, by decide, by decide⟩
  intro hasPkg hasTs loopEvents
  constructor
  · rfl
  · intro e he
    rw [show startInteractiveEvents false false hasPkg hasTs loopEvents =
      [Event.trustPrompt] from rfl] at he
    rcases List.mem_cons.mp he with he | he
    · subst he
      rfl
    · exact absurd he (List.not_mem_nil _)

end Megacli
